import Mathlib

/-!
# Limit-order matching engine: embedding and verification

Shallow embedding of `src/order_execution.cpp` (class `OrderExecutionEngine`)
and `src/orderbook.cpp` (class `OrderBook`).

Modelling conventions.

* `double` prices, costs and slippages are exact rationals (`ℚ`): finite
  doubles without rounding.  NaN keys, which break the ordering contract of
  `std::map`, are outside the model.  Where a statement is decided by rounding
  (the additivity of the gas cost), the computation is taken through
  `binary64`, IEEE-754 round-to-nearest-even.
* An `int` is a mathematical integer (`Int`) in the 32-bit range (`IsInt32`).
  Every arithmetic result stored in an `int` (`+=`, `-=`) is reduced with
  `wrap32`, the two's-complement wrap-around of the compiled program; signed
  overflow is undefined in the C++ standard, so statements that depend on a
  sum or difference carry the hypothesis that it fits.
* A `std::map<double, int, Compare>` is the list of its `(key, value)` entries
  in iteration order.  The container keeps that list strictly sorted by
  `Compare`; this is the predicate `Side.Sorted`, assumed where a statement
  depends on it and shown to be preserved by every operation.
* Console output and the `sleep_for` delay of `submitOrder` have no effect on
  the state and are left out; `pending_orders` and `block_time_ms` are never
  read by the modelled functions.
-/

/-- Price, cost and slippage values (`double` in the source). -/
abbrev Price := ℚ

/-- The value an `int` holds after the arithmetic result `x` is stored in it:
`x` modulo `2^32`, taken in `[-2^31, 2^31)`. -/
def wrap32 (x : Int) : Int := (x + 2147483648) % 4294967296 - 2147483648

/-- The integer `x` is representable as an `int`: `INT_MIN <= x <= INT_MAX`. -/
def IsInt32 (x : Int) : Prop := -2147483648 ≤ x ∧ x ≤ 2147483647

instance IsInt32.decidable (x : Int) : Decidable (IsInt32 x) := by
  unfold IsInt32; exact inferInstance

/-- Round a rational to the nearest integer, a tie going to the even one. -/
def roundHalfEven (x : ℚ) : Int :=
  if x - ⌊x⌋ < 1 / 2 then ⌊x⌋
  else if 1 / 2 < x - ⌊x⌋ then ⌊x⌋ + 1
  else if ⌊x⌋ % 2 = 0 then ⌊x⌋ else ⌊x⌋ + 1

/-- The `double` that holds the real number `x`: the nearest number with a
53-bit significand (IEEE-754 binary64, round to nearest, ties to even).  The
exponent is not bounded, which is exact for magnitudes in the normal range
`[2^-1022, 2^1024)`. -/
def binary64 (x : ℚ) : ℚ :=
  if x = 0 then 0
  else roundHalfEven (x / 2 ^ (Int.log 2 |x| - 52)) * 2 ^ (Int.log 2 |x| - 52)

/-- One entry of a price-level map: `(price, aggregate quantity)`. -/
abbrev Level := Price × Int

/-- Entries of one `std::map<double, int, Compare>`, in iteration order. -/
abbrev Side := List Level

/-- The map's `Compare`: `std::greater<double>` when `desc` (bids), the default
`std::less<double>` otherwise (asks). `before desc a b` says key `a` is ordered
before key `b`. -/
def before (desc : Bool) (a b : Price) : Prop := if desc then b < a else a < b

instance before.decidable (desc : Bool) (a b : Price) : Decidable (before desc a b) := by
  unfold before; exact inferInstance

namespace Side

/-- The container invariant of `std::map`: keys strictly ordered by `Compare`. -/
def Sorted (desc : Bool) (s : Side) : Prop := s.Pairwise (fun x y => before desc x.1 y.1)

instance Sorted.decidable (desc : Bool) (s : Side) : Decidable (Sorted desc s) := by
  unfold Sorted; exact inferInstance

/-- The keys of the map, in iteration order. -/
def keys (s : Side) : List Price := s.map Prod.fst

/-- Lookup `find(p)`: the value stored under `p`, `none` when `p` is not a key. -/
def find (p : Price) : Side → Option Int
  | [] => none
  | (k, v) :: rest => if k = p then some v else find p rest

/-- Aggregate at `p`, reading an absent level as `0`. -/
def level (p : Price) (s : Side) : Int := (find p s).getD 0

/-- The statement `m[p] = f(m[p])` (`m[p] += q`, `m[p] -= q`): `operator[]`
value-initialises the slot to `0` when `p` is not a key, at its place in the
order, then the slot is updated. -/
def modify (desc : Bool) (p : Price) (f : Int → Int) : Side → Side
  | [] => [(p, f 0)]
  | (k, v) :: rest =>
    if before desc p k then (p, f 0) :: (k, v) :: rest
    else if before desc k p then (k, v) :: modify desc p f rest
    else (k, f v) :: rest

/-- The call `m.erase(p)`: removes the entry with key `p`, if any. -/
def erase (p : Price) : Side → Side
  | [] => []
  | (k, v) :: rest => if k = p then rest else (k, v) :: erase p rest

/-- The price `r` is the maximum key of `s`. -/
def IsMaxKey (s : Side) (r : Price) : Prop := r ∈ keys s ∧ ∀ k ∈ keys s, k ≤ r

/-- The price `r` is the minimum key of `s`. -/
def IsMinKey (s : Side) (r : Price) : Prop := r ∈ keys s ∧ ∀ k ∈ keys s, r ≤ k

/-- What a best-price query `r` on the sorted map `s` must return: `0.0` on an
empty map, otherwise the extreme key (maximum when `desc`, minimum otherwise);
hence, when all keys are positive, `0.0` exactly on the empty map. -/
def BestOf (desc : Bool) (s : Side) (r : Price) : Prop :=
  (s = [] → r = 0) ∧
  (s ≠ [] → if desc then IsMaxKey s r else IsMinKey s r) ∧
  ((∀ k ∈ keys s, 0 < k) → (r = 0 ↔ s = []))

/-- Sum of the aggregates of all levels of a side. -/
def total (s : Side) : Int := (s.map Prod.snd).sum

end Side

/-! ## `src/order_execution.cpp` -/

namespace Execution

/-- The `struct Order` of `order_execution.cpp`.  The fields `quantity` and
`remaining_qty` are of type `int`: the structure records that they are in
range. -/
structure Order where
  id : Int
  price : Price
  quantity : Int
  is_buy : Bool
  remaining_qty : Int
  quantity_int : IsInt32 quantity
  remaining_int : IsInt32 remaining_qty
deriving DecidableEq, Repr

/-- The constructor `Order(i, p, q, buy)`: sets `quantity(q)` and
`remaining_qty(q)`; the argument is stored as an `int`. -/
def Order.new (i : Int) (p : Price) (q : Int) (buy : Bool) : Order :=
  { id := i, price := p, quantity := wrap32 q, is_buy := buy, remaining_qty := wrap32 q,
    quantity_int := by unfold IsInt32 wrap32; omega,
    remaining_int := by unfold IsInt32 wrap32; omega }

/-- The `struct Fill`. -/
structure Fill where
  order_id : Int
  fill_price : Price
  fill_quantity : Int
  gas_cost : ℚ
  slippage : ℚ
deriving DecidableEq, Repr

/-- State of `class OrderExecutionEngine`: the two price-level maps and the
execution history. -/
structure OrderExecutionEngine where
  bids : Side
  asks : Side
  execution_history : List Fill
deriving DecidableEq, Repr

/-- A default-constructed engine. -/
def OrderExecutionEngine.empty : OrderExecutionEngine :=
  { bids := [], asks := [], execution_history := [] }

/-- The member `gas_price_per_unit = 0.001`. -/
def gas_price_per_unit : ℚ := 0.001

/-- The member function `calculateGasCost(quantity)`. -/
def calculateGasCost (quantity : Int) : ℚ := gas_price_per_unit * quantity

/-- The `double` stored in the member `gas_price_per_unit`: the literal `0.001`
rounded to binary64. -/
def gas_price_per_unit64 : ℚ := binary64 0.001

/-- The `double` returned by `calculateGasCost(quantity)`: the rounded product
of the stored rate and the quantity (the conversion of an `int` to `double` is
exact). `calculateGasCost` above is the same product without rounding. -/
def calculateGasCost64 (quantity : Int) : ℚ := binary64 (gas_price_per_unit64 * quantity)

/-- The member function `calculateSlippage(expected_price, actual_price, is_buy)`. -/
def calculateSlippage (expected_price actual_price : Price) (is_buy : Bool) : ℚ :=
  if is_buy then actual_price - expected_price else expected_price - actual_price

/-- The price test of the matching loops: `it->first <= order.price` in the BUY
loop, `it->first >= order.price` in the SELL loop. -/
def priceOk (is_buy : Bool) (level_price order_price : Price) : Prop :=
  if is_buy then level_price ≤ order_price else level_price ≥ order_price

instance priceOk.decidable (is_buy : Bool) (a b : Price) : Decidable (priceOk is_buy a b) := by
  unfold priceOk; exact inferInstance

/-- The `while` loop of `matchOrder` (lines 72-92 for a BUY over `asks`, lines
95-115 for a SELL over `bids`; the two loops differ only in the map, the price
test and the `is_buy` flag passed to `calculateSlippage`).  The list argument is
the part of the opposite map from the iterator `it` onwards; the result is
`(fills pushed, final remaining, entries from it onwards after the loop)`.
Every iteration either erases the current entry or steps over it, so the loop
is a structural recursion on the entries.  The results of `it->second -=
fill_qty` and `remaining -= fill_qty` are stored in `int`s (`wrap32`). -/
def matchLoop (order : Order) : Int → Side → List Fill × Int × Side
  | remaining, [] => ([], remaining, [])
  | remaining, (price, available) :: rest =>
    if 0 < remaining ∧ priceOk order.is_buy price order.price then
      let fill_qty := if remaining < available then remaining else available
      let fill := Fill.mk order.id price fill_qty (calculateGasCost fill_qty)
        (calculateSlippage order.price price order.is_buy)
      let r := matchLoop order (wrap32 (remaining - fill_qty)) rest
      (fill :: r.1, r.2.1,
        if wrap32 (available - fill_qty) ≤ 0 then r.2.2
        else (price, wrap32 (available - fill_qty)) :: r.2.2)
    else ([], remaining, (price, available) :: rest)

/-- The member function `matchOrder(order)`: the fills returned and the engine
afterwards. -/
def matchOrder (e : OrderExecutionEngine) (order : Order) : List Fill × OrderExecutionEngine :=
  if order.is_buy then
    let r := matchLoop order order.remaining_qty e.asks
    let remaining := r.2.1
    (r.1, { e with
      asks := r.2.2
      bids := if 0 < remaining
              then Side.modify true order.price (fun v => wrap32 (v + remaining)) e.bids
              else e.bids })
  else
    let r := matchLoop order order.remaining_qty e.bids
    let remaining := r.2.1
    (r.1, { e with
      bids := r.2.2
      asks := if 0 < remaining
              then Side.modify false order.price (fun v => wrap32 (v + remaining)) e.asks
              else e.asks })

/-- The member function `submitOrder(order)`: matches, then appends the fills to
the history. -/
def submitOrder (e : OrderExecutionEngine) (order : Order) : OrderExecutionEngine :=
  let r := matchOrder e order
  { r.2 with execution_history := r.2.execution_history ++ r.1 }

/-- The member function `addLiquidity(price, quantity, is_buy)`. -/
def addLiquidity (e : OrderExecutionEngine) (price : Price) (quantity : Int) (is_buy : Bool) :
    OrderExecutionEngine :=
  if is_buy then { e with bids := Side.modify true price (fun v => wrap32 (v + quantity)) e.bids }
  else { e with asks := Side.modify false price (fun v => wrap32 (v + quantity)) e.asks }

/-- The member function `getBestBid()`. -/
def getBestBid (e : OrderExecutionEngine) : Price :=
  match e.bids with
  | [] => 0
  | (k, _) :: _ => k

/-- The member function `getBestAsk()`. -/
def getBestAsk (e : OrderExecutionEngine) : Price :=
  match e.asks with
  | [] => 0
  | (k, _) :: _ => k

/-- Both maps satisfy the container invariant. -/
def WF (e : OrderExecutionEngine) : Prop := Side.Sorted true e.bids ∧ Side.Sorted false e.asks

instance WF.decidable (e : OrderExecutionEngine) : Decidable (WF e) := by
  unfold WF; exact inferInstance

/-- Sum of `fill_quantity` over a list of fills. -/
def fillSum (fills : List Fill) : Int := (fills.map Fill.fill_quantity).sum

/-- The map of the order's own side: `bids` for a BUY, `asks` for a SELL. -/
def ownSide (e : OrderExecutionEngine) (is_buy : Bool) : Side := if is_buy then e.bids else e.asks

/-- The map the order is matched against: `asks` for a BUY, `bids` for a SELL. -/
def oppSide (e : OrderExecutionEngine) (is_buy : Bool) : Side := if is_buy then e.asks else e.bids

/-- Quantity rested by `matchOrder`: the growth of the level at the order's limit
price on the order's own side. -/
def restedQty (e : OrderExecutionEngine) (order : Order) : Int :=
  Side.level order.price (ownSide (matchOrder e order).2 order.is_buy)
    - Side.level order.price (ownSide e order.is_buy)

/-- The engine of `main` after the six `addLiquidity` calls. -/
def scenarioBook : OrderExecutionEngine :=
  addLiquidity (addLiquidity (addLiquidity (addLiquidity (addLiquidity (addLiquidity
    OrderExecutionEngine.empty 50000 10 false) 50010 15 false) 50020 20 false)
    49990 12 true) 49980 18 true) 49970 25 true

/-- The first order of `main`: `Order buy_order1(1, 50015.0, 30, true)`. -/
def buy_order1 : Order := Order.new 1 50015 30 true

/-- The second order of `main`: `Order sell_order1(2, 49985.0, 5, false)`. -/
def sell_order1 : Order := Order.new 2 49985 5 false

/-- One public call on the engine. -/
inductive Op where
  | addLiquidity (price : Price) (quantity : Int) (is_buy : Bool)
  | submitOrder (order : Order)
deriving DecidableEq, Repr

/-- Effect of one call on the engine state. -/
def step (e : OrderExecutionEngine) : Op → OrderExecutionEngine
  | Op.addLiquidity price quantity is_buy => addLiquidity e price quantity is_buy
  | Op.submitOrder order => submitOrder e order

/-- Effect of a sequence of calls, first call first. -/
def run (e : OrderExecutionEngine) (ops : List Op) : OrderExecutionEngine := ops.foldl step e

/-- The precondition the specification puts on `addLiquidity`: `price > 0` and
`quantity > 0`; `submitOrder` takes any order. -/
def Op.Positive : Op → Prop
  | Op.addLiquidity price quantity _ => 0 < price ∧ 0 < quantity
  | Op.submitOrder _ => True

instance Op.Positive.decidable (op : Op) : Decidable op.Positive := by
  cases op <;> unfold Op.Positive <;> exact inferInstance

/-- Every bid price is strictly below every ask price. -/
def Uncrossed (e : OrderExecutionEngine) : Prop :=
  ∀ b ∈ e.bids, ∀ a ∈ e.asks, b.1 < a.1

instance Uncrossed.decidable (e : OrderExecutionEngine) : Decidable (Uncrossed e) := by
  unfold Uncrossed; exact inferInstance

/-- An `addLiquidity` call that does not cross the book it is applied to: a bid
is added strictly below every resting ask, an ask strictly above every resting
bid. -/
def Op.NonCrossing (e : OrderExecutionEngine) : Op → Prop
  | Op.addLiquidity price _ is_buy =>
    if is_buy then ∀ a ∈ e.asks, price < a.1 else ∀ b ∈ e.bids, b.1 < price
  | Op.submitOrder _ => True

/-- A sequence of calls, run from `e`, in which every `addLiquidity` has
`price > 0`, `quantity > 0` and does not cross the book of the moment. -/
def Admissible : OrderExecutionEngine → List Op → Prop
  | _, [] => True
  | e, op :: ops => op.Positive ∧ op.NonCrossing e ∧ Admissible (step e op) ops

instance Op.NonCrossing.decidable (e : OrderExecutionEngine) (op : Op) :
    Decidable (op.NonCrossing e) := by
  cases op <;> unfold Op.NonCrossing <;> exact inferInstance

instance Admissible.decidable : (e : OrderExecutionEngine) → (ops : List Op) →
    Decidable (Admissible e ops)
  | _, [] => isTrue trivial
  | e, op :: ops =>
    have : Decidable (Admissible (step e op) ops) := Admissible.decidable (step e op) ops
    (inferInstance : Decidable (op.Positive ∧ op.NonCrossing e ∧ Admissible (step e op) ops))

/-- Every stored level of both maps has a positive aggregate. -/
def AllPositive (e : OrderExecutionEngine) : Prop :=
  (∀ x ∈ e.bids, 0 < x.2) ∧ (∀ x ∈ e.asks, 0 < x.2)

instance AllPositive.decidable (e : OrderExecutionEngine) : Decidable (AllPositive e) := by
  unfold AllPositive; exact inferInstance

/-- The calls of `main` in `order_execution.cpp`, in order. -/
def mainOps : List Op :=
  [Op.addLiquidity 50000 10 false, Op.addLiquidity 50010 15 false,
   Op.addLiquidity 50020 20 false, Op.addLiquidity 49990 12 true,
   Op.addLiquidity 49980 18 true, Op.addLiquidity 49970 25 true,
   Op.submitOrder (Order.new 1 50015 30 true), Op.submitOrder (Order.new 2 49985 5 false),
   Op.submitOrder (Order.new 3 50025 8 true)]

/-- A bid at 100, an ask at 90, then BUY 1 @ 50. -/
def crossingOps : List Op :=
  [Op.addLiquidity 100 10 true, Op.addLiquidity 90 10 false,
   Op.submitOrder (Order.new 1 50 1 true)]

/-- Every stored level of both maps is an `int`. -/
def AllInt32 (e : OrderExecutionEngine) : Prop :=
  (∀ x ∈ e.bids, IsInt32 x.2) ∧ (∀ x ∈ e.asks, IsInt32 x.2)

instance AllInt32.decidable (e : OrderExecutionEngine) : Decidable (AllInt32 e) := by
  unfold AllInt32; exact inferInstance

/-- The `+=` of the call does not overflow in state `e`: for `addLiquidity` the
level at `price` plus `quantity`, for `submitOrder` the level at the limit price
on the order's own side plus the unfilled remainder, is at most `INT_MAX`. -/
def Op.Fits (e : OrderExecutionEngine) : Op → Prop
  | Op.addLiquidity price quantity is_buy =>
    Side.level price (ownSide e is_buy) + quantity ≤ 2147483647
  | Op.submitOrder order =>
    Side.level order.price (ownSide e order.is_buy)
      + (order.remaining_qty - fillSum (matchOrder e order).1) ≤ 2147483647

instance Op.Fits.decidable (e : OrderExecutionEngine) (op : Op) : Decidable (op.Fits e) := by
  cases op <;> unfold Op.Fits <;> exact inferInstance

/-- In the sequence of calls run from `e`, no `+=` overflows. -/
def NoOverflow : OrderExecutionEngine → List Op → Prop
  | _, [] => True
  | e, op :: ops => op.Fits e ∧ NoOverflow (step e op) ops

instance NoOverflow.decidable : (e : OrderExecutionEngine) → (ops : List Op) →
    Decidable (NoOverflow e ops)
  | _, [] => isTrue trivial
  | e, op :: ops =>
    have : Decidable (NoOverflow (step e op) ops) := NoOverflow.decidable (step e op) ops
    (inferInstance : Decidable (op.Fits e ∧ NoOverflow (step e op) ops))

/-- Two calls that overflow the bid level at 100. -/
def overflowOps : List Op :=
  [Op.addLiquidity 100 2147483647 true, Op.addLiquidity 100 1 true]

/-- The engine after `addLiquidity(100, -1, false)`: one ask level holding -1. -/
def negAskBook : OrderExecutionEngine := addLiquidity OrderExecutionEngine.empty 100 (-1) false

/-- The engine after `addLiquidity(100, 2147483647, true)`: one bid level holding
`INT_MAX`. -/
def fullBook : OrderExecutionEngine := addLiquidity OrderExecutionEngine.empty 100 2147483647 true

end Execution

/-! ## `src/orderbook.cpp` -/

namespace Book

/-- The `struct Order` of `orderbook.cpp` (no `remaining_qty`). -/
structure Order where
  id : Int
  price : Price
  quantity : Int
  is_buy : Bool
deriving DecidableEq, Repr

/-- State of `class OrderBook`. -/
structure OrderBook where
  bids : Side
  asks : Side
deriving DecidableEq, Repr

/-- The member function `addOrder(order)`. -/
def addOrder (b : OrderBook) (order : Order) : OrderBook :=
  if order.is_buy
  then { b with bids := Side.modify true order.price (fun v => wrap32 (v + order.quantity)) b.bids }
  else { b with asks := Side.modify false order.price (fun v => wrap32 (v + order.quantity)) b.asks }

/-- One branch of `removeOrder`: `m[price] -= quantity; if (m[price] <= 0)
m.erase(price);`.  The second `m[price]` reads the slot the first one found or
created. -/
def removeLevel (desc : Bool) (price : Price) (quantity : Int) (m : Side) : Side :=
  let m1 := Side.modify desc price (fun v => wrap32 (v - quantity)) m
  if Side.level price m1 ≤ 0 then Side.erase price m1 else m1

/-- The member function `removeOrder(price, quantity, is_buy)`. -/
def removeOrder (b : OrderBook) (price : Price) (quantity : Int) (is_buy : Bool) : OrderBook :=
  if is_buy then { b with bids := removeLevel true price quantity b.bids }
  else { b with asks := removeLevel false price quantity b.asks }

/-- The member function `getBestBid()`. -/
def getBestBid (b : OrderBook) : Price :=
  match b.bids with
  | [] => 0
  | (k, _) :: _ => k

/-- The member function `getBestAsk()`. -/
def getBestAsk (b : OrderBook) : Price :=
  match b.asks with
  | [] => 0
  | (k, _) :: _ => k

/-- The member function `getSpread()`. -/
def getSpread (b : OrderBook) : Price :=
  let bid := getBestBid b
  let ask := getBestAsk b
  if bid = 0 ∨ ask = 0 then 0 else ask - bid

/-- Both maps satisfy the container invariant. -/
def WF (b : OrderBook) : Prop := Side.Sorted true b.bids ∧ Side.Sorted false b.asks

instance WF.decidable (b : OrderBook) : Decidable (WF b) := by
  unfold WF; exact inferInstance

/-- The map selected by `is_buy`: `bids` when true, `asks` when false. -/
def side (b : OrderBook) (is_buy : Bool) : Side := if is_buy then b.bids else b.asks

/-- The best-price query of the side selected by `is_buy`: `getBestBid()` when
true, `getBestAsk()` when false. -/
def getBest (b : OrderBook) (is_buy : Bool) : Price :=
  if is_buy then getBestBid b else getBestAsk b

/-- The book of `main` in `orderbook.cpp` after the five `addOrder` calls. -/
def mainBook : OrderBook :=
  addOrder (addOrder (addOrder (addOrder (addOrder { bids := [], asks := [] }
    ⟨1, 123.50, 100, true⟩) ⟨2, 123.45, 50, true⟩) ⟨3, 123.55, 200, false⟩)
    ⟨4, 123.60, 75, false⟩) ⟨5, 123.40, 150, true⟩

/-- The book holding the single bid `Order(1, 0.0, 5, true)`. -/
def zeroBook : OrderBook := addOrder { bids := [], asks := [] } ⟨1, 0, 5, true⟩

/-- The book holding the bid `Order(1, 0.0, 5, true)` and the ask
`Order(2, 10.0, 5, false)`. -/
def zeroBidBook : OrderBook := addOrder zeroBook ⟨2, 10, 5, false⟩

/-- The book holding the single bid `Order(1, 10.0, -5, true)`. -/
def negBidBook : OrderBook := addOrder { bids := [], asks := [] } ⟨1, 10, -5, true⟩

/-- The book holding the single bid `Order(1, 100.0, 2147483647, true)`. -/
def fullBidBook : OrderBook := addOrder { bids := [], asks := [] } ⟨1, 100, 2147483647, true⟩

end Book


/-! ## Lemmas on the ordered maps -/

theorem before_irrefl (desc : Bool) (a : Price) : ¬ before desc a a := by
  cases desc <;> simp [before]

theorem before_asymm {desc : Bool} {a b : Price} (h : before desc a b) : ¬ before desc b a := by
  cases desc <;> simp [before] at h ⊢ <;> exact le_of_lt h

theorem before_trans {desc : Bool} {a b c : Price} (h1 : before desc a b) (h2 : before desc b c) :
    before desc a c := by
  cases desc <;> simp [before] at h1 h2 ⊢
  · exact lt_trans h1 h2
  · exact lt_trans h2 h1

theorem before_ne {desc : Bool} {a b : Price} (h : before desc a b) : a ≠ b := by
  intro hab
  subst hab
  exact before_irrefl desc a h

theorem eq_of_not_before {desc : Bool} {a b : Price} (h1 : ¬ before desc a b)
    (h2 : ¬ before desc b a) : b = a := by
  cases desc <;> simp [before] at h1 h2 <;> exact le_antisymm (by assumption) (by assumption)

namespace Side

theorem sorted_cons {desc : Bool} {x : Level} {s : Side} :
    Sorted desc (x :: s) ↔ (∀ y ∈ s, before desc x.1 y.1) ∧ Sorted desc s := by
  simp [Sorted, List.pairwise_cons]

theorem sorted_nil (desc : Bool) : Sorted desc [] := by
  simp [Sorted]

theorem find_eq_none {p : Price} {s : Side} (h : ∀ x ∈ s, x.1 ≠ p) : find p s = none := by
  induction s with
  | nil => rfl
  | cons x rest ih =>
    obtain ⟨k, v⟩ := x
    have hk : k ≠ p := h (k, v) (List.mem_cons_self _ _)
    simp only [find, if_neg hk]
    exact ih (fun y hy => h y (List.mem_cons_of_mem _ hy))

theorem find_some_mem {p : Price} {v : Int} {s : Side} (h : find p s = some v) : (p, v) ∈ s := by
  induction s with
  | nil => simp [find] at h
  | cons x rest ih =>
    obtain ⟨k, w⟩ := x
    by_cases hk : k = p
    · simp only [find, if_pos hk, Option.some.injEq] at h
      subst hk; subst h
      exact List.mem_cons_self _ _
    · simp only [find, if_neg hk] at h
      exact List.mem_cons_of_mem _ (ih h)

theorem find_of_mem {desc : Bool} {p : Price} {v : Int} {s : Side} (hs : Sorted desc s)
    (h : (p, v) ∈ s) : find p s = some v := by
  induction s with
  | nil => simp at h
  | cons x rest ih =>
    obtain ⟨k, w⟩ := x
    rw [sorted_cons] at hs
    rcases List.mem_cons.mp h with heq | hmem
    · simp only [Prod.mk.injEq] at heq
      simp [find, heq.1, heq.2]
    · have hk : k ≠ p := before_ne (hs.1 (p, v) hmem)
      simp only [find, if_neg hk]
      exact ih hs.2 hmem

theorem find_isSome_iff {p : Price} {s : Side} : (find p s).isSome ↔ p ∈ keys s := by
  induction s with
  | nil => simp [find, keys]
  | cons x rest ih =>
    obtain ⟨k, w⟩ := x
    by_cases hk : k = p
    · simp [find, keys, hk]
    · have hk2 : ¬ p = k := fun h => hk h.symm
      simp only [find, if_neg hk, ih, keys, List.map_cons, List.mem_cons, hk2, false_or]

theorem find_eq_none_iff {p : Price} {s : Side} : find p s = none ↔ p ∉ keys s := by
  rw [← find_isSome_iff]
  cases find p s <;> simp

theorem mem_modify {desc : Bool} {p : Price} {f : Int → Int} {s : Side} {x : Level}
    (h : x ∈ modify desc p f s) :
    x ∈ s ∨ (x.1 = p ∧ (x.2 = f 0 ∨ ∃ v, (p, v) ∈ s ∧ x.2 = f v)) := by
  induction s with
  | nil =>
    simp only [modify, List.mem_singleton] at h
    subst h
    exact Or.inr ⟨rfl, Or.inl rfl⟩
  | cons y rest ih =>
    obtain ⟨k, v⟩ := y
    unfold modify at h
    split_ifs at h with h1 h2
    · rcases List.mem_cons.mp h with heq | hmem
      · subst heq
        exact Or.inr ⟨rfl, Or.inl rfl⟩
      · exact Or.inl hmem
    · rcases List.mem_cons.mp h with heq | hmem
      · subst heq
        exact Or.inl (List.mem_cons_self _ _)
      · rcases ih hmem with h3 | ⟨h3, h4⟩
        · exact Or.inl (List.mem_cons_of_mem _ h3)
        · refine Or.inr ⟨h3, ?_⟩
          rcases h4 with h4 | ⟨w, hw, hx⟩
          · exact Or.inl h4
          · exact Or.inr ⟨w, List.mem_cons_of_mem _ hw, hx⟩
    · have hkp : k = p := eq_of_not_before h1 h2
      rcases List.mem_cons.mp h with heq | hmem
      · subst heq
        refine Or.inr ⟨hkp, Or.inr ⟨v, ?_, rfl⟩⟩
        rw [← hkp]
        exact List.mem_cons_self _ _
      · exact Or.inl (List.mem_cons_of_mem _ hmem)

theorem sorted_modify {desc : Bool} {p : Price} {f : Int → Int} {s : Side}
    (hs : Sorted desc s) : Sorted desc (modify desc p f s) := by
  induction s with
  | nil => simp [modify, Sorted]
  | cons y rest ih =>
    obtain ⟨k, v⟩ := y
    have hs2 := sorted_cons.mp hs
    unfold modify
    split_ifs with h1 h2
    · rw [sorted_cons]
      refine ⟨?_, hs⟩
      intro z hz
      rcases List.mem_cons.mp hz with heq | hmem
      · subst heq
        exact h1
      · exact before_trans h1 (hs2.1 z hmem)
    · rw [sorted_cons]
      refine ⟨?_, ih hs2.2⟩
      intro z hz
      rcases mem_modify hz with h3 | ⟨h3, _⟩
      · exact hs2.1 z h3
      · rw [h3]
        exact h2
    · rw [sorted_cons]
      exact ⟨hs2.1, hs2.2⟩

theorem find_modify_self {desc : Bool} {p : Price} {f : Int → Int} {s : Side}
    (hs : Sorted desc s) : find p (modify desc p f s) = some (f (level p s)) := by
  induction s with
  | nil => simp [modify, find, level]
  | cons y rest ih =>
    obtain ⟨k, v⟩ := y
    have hs2 := sorted_cons.mp hs
    unfold modify
    split_ifs with h1 h2
    · have hnone : find p ((k, v) :: rest) = none := by
        apply find_eq_none
        intro z hz
        rcases List.mem_cons.mp hz with heq | hmem
        · subst heq
          exact (before_ne h1).symm
        · exact (before_ne (before_trans h1 (hs2.1 z hmem))).symm
      have hl : level p ((k, v) :: rest) = 0 := by
        unfold level
        rw [hnone]
        rfl
      rw [hl]
      simp [find]
    · have hk : k ≠ p := before_ne h2
      simp only [find, if_neg hk, level]
      exact ih hs2.2
    · have hkp : k = p := eq_of_not_before h1 h2
      simp [find, level, hkp]

theorem find_modify_other {desc : Bool} {p q : Price} {f : Int → Int} {s : Side}
    (hq : q ≠ p) : find q (modify desc p f s) = find q s := by
  induction s with
  | nil =>
    have hpq : ¬ p = q := fun h => hq h.symm
    simp [modify, find, hpq]
  | cons y rest ih =>
    obtain ⟨k, v⟩ := y
    have hpq : ¬ p = q := fun h => hq h.symm
    unfold modify
    split_ifs with h1 h2
    · simp [find, hpq]
    · simp only [find, ih]
    · have hkp : k = p := eq_of_not_before h1 h2
      have hkq : ¬ k = q := by rw [hkp]; exact hpq
      simp [find, hkq]

theorem level_modify_self {desc : Bool} {p : Price} {f : Int → Int} {s : Side}
    (hs : Sorted desc s) : level p (modify desc p f s) = f (level p s) := by
  unfold level
  rw [find_modify_self hs]
  rfl

theorem mem_erase {p : Price} {s : Side} {x : Level} (h : x ∈ erase p s) : x ∈ s := by
  induction s with
  | nil => simp [erase] at h
  | cons y rest ih =>
    obtain ⟨k, v⟩ := y
    unfold erase at h
    split_ifs at h with h1
    · exact List.mem_cons_of_mem _ h
    · rcases List.mem_cons.mp h with heq | hmem
      · subst heq
        exact List.mem_cons_self _ _
      · exact List.mem_cons_of_mem _ (ih hmem)

theorem sorted_erase {desc : Bool} {p : Price} {s : Side} (hs : Sorted desc s) :
    Sorted desc (erase p s) := by
  induction s with
  | nil => simp [erase, Sorted]
  | cons y rest ih =>
    obtain ⟨k, v⟩ := y
    have hs2 := sorted_cons.mp hs
    unfold erase
    split_ifs with h1
    · exact hs2.2
    · rw [sorted_cons]
      exact ⟨fun z hz => hs2.1 z (mem_erase hz), ih hs2.2⟩

theorem find_erase_self {desc : Bool} {p : Price} {s : Side} (hs : Sorted desc s) :
    find p (erase p s) = none := by
  induction s with
  | nil => simp [erase, find]
  | cons y rest ih =>
    obtain ⟨k, v⟩ := y
    have hs2 := sorted_cons.mp hs
    unfold erase
    split_ifs with h1
    · apply find_eq_none
      intro z hz
      rw [← h1]
      exact (before_ne (hs2.1 z hz)).symm
    · simp only [find, if_neg h1]
      exact ih hs2.2

theorem find_erase_other {p q : Price} {s : Side} (hq : q ≠ p) :
    find q (erase p s) = find q s := by
  induction s with
  | nil => simp [erase]
  | cons y rest ih =>
    obtain ⟨k, v⟩ := y
    unfold erase
    split_ifs with h1
    · have hkq : ¬ k = q := by rw [h1]; exact fun h => hq h.symm
      simp [find, hkq]
    · simp only [find, ih]

end Side

/-! ## Lemmas on the matching loop -/

namespace Execution

theorem priceOk_of_before {b : Bool} {p x P : Price} (h : before (!b) p x)
    (hx : priceOk b x P) : priceOk b p P := by
  cases b <;> simp [before, priceOk] at h hx ⊢
  · exact le_trans hx (le_of_lt h)
  · exact le_trans (le_of_lt h) hx

theorem matchLoop_nonpos (o : Order) {rem : Int} (h : rem ≤ 0) (s : Side) :
    matchLoop o rem s = ([], rem, s) := by
  cases s with
  | nil => rfl
  | cons x rest =>
    obtain ⟨p, a⟩ := x
    have h0 : ¬ 0 < rem := not_lt.mpr h
    simp [matchLoop, h0]

theorem matchLoop_cons_pos (o : Order) {rem : Int} {p : Price} {a : Int} (rest : Side)
    (h : 0 < rem ∧ priceOk o.is_buy p o.price) :
    matchLoop o rem ((p, a) :: rest) =
      (Fill.mk o.id p (if rem < a then rem else a) (calculateGasCost (if rem < a then rem else a))
          (calculateSlippage o.price p o.is_buy)
        :: (matchLoop o (wrap32 (rem - (if rem < a then rem else a))) rest).1,
       (matchLoop o (wrap32 (rem - (if rem < a then rem else a))) rest).2.1,
       if wrap32 (a - (if rem < a then rem else a)) ≤ 0
       then (matchLoop o (wrap32 (rem - (if rem < a then rem else a))) rest).2.2
       else (p, wrap32 (a - (if rem < a then rem else a)))
        :: (matchLoop o (wrap32 (rem - (if rem < a then rem else a))) rest).2.2) := by
  simp only [matchLoop, if_pos h]

theorem matchLoop_cons_neg (o : Order) {rem : Int} {p : Price} {a : Int} (rest : Side)
    (h : ¬ (0 < rem ∧ priceOk o.is_buy p o.price)) :
    matchLoop o rem ((p, a) :: rest) = ([], rem, (p, a) :: rest) := by
  simp only [matchLoop, if_neg h]

/-- A level that stays in the map after a fill ends the loop: the incoming
quantity was spent on it. -/
theorem matchLoop_level_kept (o : Order) {rem a : Int} (rest : Side)
    (h : ¬ wrap32 (a - (if rem < a then rem else a)) ≤ 0) :
    matchLoop o (wrap32 (rem - (if rem < a then rem else a))) rest = ([], 0, rest) := by
  have hlt : rem < a := by
    by_contra hc
    simp [hc, wrap32] at h
  have h0 : wrap32 (rem - rem) = 0 := by simp [wrap32]
  simp only [if_pos hlt, h0]
  exact matchLoop_nonpos o (le_refl 0) rest

/-- A stored `int` that is in range is unchanged by the wrap. -/
theorem wrap32_of_isInt32 {x : Int} (h : IsInt32 x) : wrap32 x = x := by
  unfold IsInt32 at h
  unfold wrap32
  omega

theorem wrap32_isInt32 (x : Int) : IsInt32 (wrap32 x) := by
  unfold IsInt32 wrap32
  omega

/-- With a positive level and a positive in-range counter, `remaining -= fill_qty`
does not overflow: the counter stays in `[0, remaining)`. -/
theorem wrap32_rem_sub {rem a : Int} (hr : IsInt32 rem) (hrem : 0 < rem) (ha : 0 < a) :
    wrap32 (rem - (if rem < a then rem else a)) = rem - (if rem < a then rem else a) ∧
    0 ≤ rem - (if rem < a then rem else a) ∧
    rem - (if rem < a then rem else a) < rem := by
  unfold IsInt32 at hr
  unfold wrap32
  split_ifs <;> omega

theorem isInt32_rem_sub {rem a : Int} (hr : IsInt32 rem) (hrem : 0 < rem) (ha : 0 < a) :
    IsInt32 (rem - (if rem < a then rem else a)) := by
  have h := wrap32_rem_sub hr hrem ha
  unfold IsInt32 at hr ⊢
  omega

/-- On positive levels and with an in-range counter the loop's subtractions do
not overflow: what is filled plus what is left over is the incoming quantity. -/
theorem matchLoop_sum (o : Order) (rem : Int) (s : Side) (hr : IsInt32 rem)
    (hpos : ∀ x ∈ s, 0 < x.2) :
    fillSum (matchLoop o rem s).1 + (matchLoop o rem s).2.1 = rem := by
  induction s generalizing rem with
  | nil => simp [matchLoop, fillSum]
  | cons x rest ih =>
    obtain ⟨p, a⟩ := x
    have hposr : ∀ x ∈ rest, 0 < x.2 := fun x hx => hpos x (List.mem_cons_of_mem _ hx)
    have ha : 0 < a := hpos (p, a) (List.mem_cons_self _ _)
    by_cases h : 0 < rem ∧ priceOk o.is_buy p o.price
    · rw [matchLoop_cons_pos o rest h, (wrap32_rem_sub hr h.1 ha).1]
      have h2 := ih (rem - (if rem < a then rem else a)) (isInt32_rem_sub hr h.1 ha) hposr
      simp only [fillSum, List.map_cons, List.sum_cons] at h2 ⊢
      omega
    · rw [matchLoop_cons_neg o rest h]
      simp [fillSum]

theorem matchLoop_rem_nonneg (o : Order) {rem : Int} (hr : IsInt32 rem) (h : 0 ≤ rem)
    (s : Side) (hpos : ∀ x ∈ s, 0 < x.2) : 0 ≤ (matchLoop o rem s).2.1 := by
  induction s generalizing rem with
  | nil => simpa [matchLoop] using h
  | cons x rest ih =>
    obtain ⟨p, a⟩ := x
    have hposr : ∀ x ∈ rest, 0 < x.2 := fun x hx => hpos x (List.mem_cons_of_mem _ hx)
    have ha : 0 < a := hpos (p, a) (List.mem_cons_self _ _)
    by_cases hg : 0 < rem ∧ priceOk o.is_buy p o.price
    · rw [matchLoop_cons_pos o rest hg, (wrap32_rem_sub hr hg.1 ha).1]
      exact ih (isInt32_rem_sub hr hg.1 ha) (wrap32_rem_sub hr hg.1 ha).2.1 hposr
    · rw [matchLoop_cons_neg o rest hg]
      exact h

theorem matchLoop_mem_side (o : Order) (rem : Int) (s : Side) {x : Level}
    (hx : x ∈ (matchLoop o rem s).2.2) :
    x ∈ s ∨ (0 < x.2 ∧ ∃ v, (x.1, v) ∈ s) := by
  induction s generalizing rem with
  | nil => simp [matchLoop] at hx
  | cons y rest ih =>
    obtain ⟨p, a⟩ := y
    by_cases hg : 0 < rem ∧ priceOk o.is_buy p o.price
    · have hrec : x ∈ (matchLoop o (wrap32 (rem - (if rem < a then rem else a))) rest).2.2 →
          x ∈ (p, a) :: rest ∨ (0 < x.2 ∧ ∃ v, (x.1, v) ∈ (p, a) :: rest) := by
        intro hz
        rcases ih _ hz with h1 | ⟨h1, v, hv⟩
        · exact Or.inl (List.mem_cons_of_mem _ h1)
        · exact Or.inr ⟨h1, v, List.mem_cons_of_mem _ hv⟩
      rw [matchLoop_cons_pos o rest hg] at hx
      by_cases h3 : wrap32 (a - (if rem < a then rem else a)) ≤ 0
      · simp only [if_pos h3] at hx
        exact hrec hx
      · simp only [if_neg h3] at hx
        rcases List.mem_cons.mp hx with heq | hmem
        · subst heq
          exact Or.inr ⟨not_le.mp h3, a, List.mem_cons_self _ _⟩
        · exact hrec hmem
    · rw [matchLoop_cons_neg o rest hg] at hx
      exact Or.inl hx

theorem matchLoop_key_mem (o : Order) (rem : Int) (s : Side) {x : Level}
    (hx : x ∈ (matchLoop o rem s).2.2) : ∃ v, (x.1, v) ∈ s := by
  rcases matchLoop_mem_side o rem s hx with h | ⟨_, h⟩
  · exact ⟨x.2, h⟩
  · exact h

theorem matchLoop_pos (o : Order) (rem : Int) (s : Side) (hs : ∀ x ∈ s, 0 < x.2) :
    ∀ x ∈ (matchLoop o rem s).2.2, 0 < x.2 := by
  intro x hx
  rcases matchLoop_mem_side o rem s hx with h | ⟨h, _⟩
  · exact hs x h
  · exact h

theorem matchLoop_sorted (o : Order) (desc : Bool) (rem : Int) (s : Side)
    (hs : Side.Sorted desc s) : Side.Sorted desc (matchLoop o rem s).2.2 := by
  induction s generalizing rem with
  | nil => simpa [matchLoop] using hs
  | cons y rest ih =>
    obtain ⟨p, a⟩ := y
    have hs2 := Side.sorted_cons.mp hs
    by_cases hg : 0 < rem ∧ priceOk o.is_buy p o.price
    · rw [matchLoop_cons_pos o rest hg]
      by_cases h3 : wrap32 (a - (if rem < a then rem else a)) ≤ 0
      · simp only [if_pos h3]
        exact ih _ hs2.2
      · simp only [if_neg h3]
        rw [Side.sorted_cons]
        refine ⟨?_, ih _ hs2.2⟩
        intro z hz
        obtain ⟨v, hv⟩ := matchLoop_key_mem o _ rest hz
        exact hs2.1 (z.1, v) hv
    · rw [matchLoop_cons_neg o rest hg]
      exact hs

/-- What each fill pushed by the loop records. -/
theorem matchLoop_fill_fields (o : Order) (rem : Int) (s : Side) :
    ∀ f ∈ (matchLoop o rem s).1,
      f.order_id = o.id ∧ (∃ v, (f.fill_price, v) ∈ s) ∧
      f.gas_cost = calculateGasCost f.fill_quantity ∧
      f.slippage = calculateSlippage o.price f.fill_price o.is_buy ∧
      priceOk o.is_buy f.fill_price o.price := by
  induction s generalizing rem with
  | nil => simp [matchLoop]
  | cons y rest ih =>
    obtain ⟨p, a⟩ := y
    by_cases hg : 0 < rem ∧ priceOk o.is_buy p o.price
    · rw [matchLoop_cons_pos o rest hg]
      intro f hf
      rcases List.mem_cons.mp hf with heq | hmem
      · subst heq
        exact ⟨rfl, ⟨a, List.mem_cons_self _ _⟩, rfl, rfl, hg.2⟩
      · obtain ⟨h1, ⟨v, hv⟩, h3⟩ := ih _ f hmem
        exact ⟨h1, ⟨v, List.mem_cons_of_mem _ hv⟩, h3⟩
    · rw [matchLoop_cons_neg o rest hg]
      simp

/-- The fills are pushed in the iteration order of the map. -/
theorem matchLoop_fills_sorted (o : Order) (desc : Bool) (rem : Int) (s : Side)
    (hs : Side.Sorted desc s) :
    ((matchLoop o rem s).1.map Fill.fill_price).Pairwise (before desc) := by
  induction s generalizing rem with
  | nil => simp [matchLoop]
  | cons y rest ih =>
    obtain ⟨p, a⟩ := y
    have hs2 := Side.sorted_cons.mp hs
    by_cases hg : 0 < rem ∧ priceOk o.is_buy p o.price
    · rw [matchLoop_cons_pos o rest hg]
      simp only [List.map_cons, List.pairwise_cons]
      refine ⟨?_, ih _ hs2.2⟩
      intro q hq
      obtain ⟨f, hf, hfq⟩ := List.mem_map.mp hq
      obtain ⟨_, ⟨v, hv⟩, _⟩ := matchLoop_fill_fields o _ rest f hf
      rw [← hfq]
      exact hs2.1 (f.fill_price, v) hv
    · rw [matchLoop_cons_neg o rest hg]
      simp

/-- No level left from the iterator onwards is ordered before a fill's price. -/
theorem matchLoop_no_better (o : Order) (desc : Bool) (rem : Int) (s : Side)
    (hs : Side.Sorted desc s) :
    ∀ f ∈ (matchLoop o rem s).1, ∀ x ∈ (matchLoop o rem s).2.2,
      ¬ before desc x.1 f.fill_price := by
  induction s generalizing rem with
  | nil => simp [matchLoop]
  | cons y rest ih =>
    obtain ⟨p, a⟩ := y
    have hs2 := Side.sorted_cons.mp hs
    by_cases hg : 0 < rem ∧ priceOk o.is_buy p o.price
    · by_cases h3 : wrap32 (a - (if rem < a then rem else a)) ≤ 0
      · rw [matchLoop_cons_pos o rest hg]
        simp only [if_pos h3]
        intro f hf x hx
        rcases List.mem_cons.mp hf with heq | hmem
        · subst heq
          obtain ⟨v, hv⟩ := matchLoop_key_mem o _ rest hx
          exact before_asymm (hs2.1 (x.1, v) hv)
        · exact ih _ hs2.2 f hmem x hx
      · rw [matchLoop_cons_pos o rest hg]
        simp only [if_neg h3, matchLoop_level_kept o rest h3]
        intro f hf x hx
        simp only [List.mem_singleton] at hf
        subst hf
        rcases List.mem_cons.mp hx with heq | hmem
        · subst heq
          exact before_irrefl desc p
        · exact before_asymm (hs2.1 x hmem)
    · rw [matchLoop_cons_neg o rest hg]
      simp

/-- When quantity is left over, every level still in the opposite map fails the
price test. -/
theorem matchLoop_rest_fails (o : Order) (rem : Int) (s : Side)
    (hs : Side.Sorted (!o.is_buy) s) (hrem : 0 < (matchLoop o rem s).2.1) :
    ∀ x ∈ (matchLoop o rem s).2.2, ¬ priceOk o.is_buy x.1 o.price := by
  induction s generalizing rem with
  | nil => simp [matchLoop]
  | cons y rest ih =>
    obtain ⟨p, a⟩ := y
    have hs2 := Side.sorted_cons.mp hs
    by_cases hg : 0 < rem ∧ priceOk o.is_buy p o.price
    · by_cases h3 : wrap32 (a - (if rem < a then rem else a)) ≤ 0
      · rw [matchLoop_cons_pos o rest hg] at hrem ⊢
        simp only [if_pos h3] at hrem ⊢
        exact ih _ hs2.2 hrem
      · rw [matchLoop_cons_pos o rest hg] at hrem
        simp only [matchLoop_level_kept o rest h3] at hrem
        exact absurd hrem (lt_irrefl 0)
    · rw [matchLoop_cons_neg o rest hg] at hrem ⊢
      simp only at hrem
      have hp : ¬ priceOk o.is_buy p o.price := fun hp => hg ⟨hrem, hp⟩
      intro x hx
      rcases List.mem_cons.mp hx with heq | hmem
      · subst heq
        exact hp
      · exact fun hxp => hp (priceOk_of_before (hs2.1 x hmem) hxp)

end Execution

/-! ## `matchOrder` in terms of its loop -/

namespace Execution

theorem matchOrder_fills (e : OrderExecutionEngine) (o : Order) :
    (matchOrder e o).1 = (matchLoop o o.remaining_qty (oppSide e o.is_buy)).1 := by
  cases hb : o.is_buy <;> simp [matchOrder, oppSide, hb]

theorem matchOrder_opp (e : OrderExecutionEngine) (o : Order) :
    oppSide (matchOrder e o).2 o.is_buy
      = (matchLoop o o.remaining_qty (oppSide e o.is_buy)).2.2 := by
  cases hb : o.is_buy <;> simp [matchOrder, oppSide, hb]

theorem matchOrder_own (e : OrderExecutionEngine) (o : Order) :
    ownSide (matchOrder e o).2 o.is_buy
      = if 0 < (matchLoop o o.remaining_qty (oppSide e o.is_buy)).2.1
        then Side.modify o.is_buy o.price
          (fun v => wrap32 (v + (matchLoop o o.remaining_qty (oppSide e o.is_buy)).2.1))
          (ownSide e o.is_buy)
        else ownSide e o.is_buy := by
  cases hb : o.is_buy <;> simp [matchOrder, oppSide, ownSide, hb]

theorem matchOrder_history (e : OrderExecutionEngine) (o : Order) :
    (matchOrder e o).2.execution_history = e.execution_history := by
  cases hb : o.is_buy <;> simp [matchOrder, hb]

theorem engine_ext_sides {e1 e2 : OrderExecutionEngine} (b : Bool)
    (h1 : ownSide e1 b = ownSide e2 b) (h2 : oppSide e1 b = oppSide e2 b)
    (h3 : e1.execution_history = e2.execution_history) : e1 = e2 := by
  cases e1; cases e2
  cases b <;> simp_all [ownSide, oppSide]

theorem wf_own {e : OrderExecutionEngine} (h : WF e) (b : Bool) :
    Side.Sorted b (ownSide e b) := by
  cases b
  · exact h.2
  · exact h.1

theorem wf_opp {e : OrderExecutionEngine} (h : WF e) (b : Bool) :
    Side.Sorted (!b) (oppSide e b) := by
  cases b
  · exact h.1
  · exact h.2

theorem wf_of_sides {e : OrderExecutionEngine} (b : Bool) (h1 : Side.Sorted b (ownSide e b))
    (h2 : Side.Sorted (!b) (oppSide e b)) : WF e := by
  cases b
  · exact ⟨h2, h1⟩
  · exact ⟨h1, h2⟩

theorem matchOrder_wf {e : OrderExecutionEngine} (h : WF e) (o : Order) :
    WF (matchOrder e o).2 := by
  apply wf_of_sides o.is_buy
  · rw [matchOrder_own]
    split_ifs
    · exact Side.sorted_modify (wf_own h _)
    · exact wf_own h _
  · rw [matchOrder_opp]
    exact matchLoop_sorted o _ _ _ (wf_opp h _)

theorem addLiquidity_wf {e : OrderExecutionEngine} (h : WF e) (price : Price) (quantity : Int)
    (is_buy : Bool) : WF (addLiquidity e price quantity is_buy) := by
  cases is_buy
  · exact ⟨h.1, Side.sorted_modify h.2⟩
  · exact ⟨Side.sorted_modify h.1, h.2⟩

theorem submitOrder_sides (e : OrderExecutionEngine) (o : Order) :
    (submitOrder e o).bids = (matchOrder e o).2.bids ∧
    (submitOrder e o).asks = (matchOrder e o).2.asks := by
  simp [submitOrder]

theorem submitOrder_wf {e : OrderExecutionEngine} (h : WF e) (o : Order) :
    WF (submitOrder e o) := by
  have h2 := matchOrder_wf h o
  unfold WF at h2 ⊢
  rw [(submitOrder_sides e o).1, (submitOrder_sides e o).2]
  exact h2

end Execution

/-! ## Claims -/

namespace Execution

/-- The book built by the six `addLiquidity` calls of `main`. -/
theorem scenarioBook_eq :
    scenarioBook = { bids := [(49990, 12), (49980, 18), (49970, 25)],
                     asks := [(50000, 10), (50010, 15), (50020, 20)],
                     execution_history := [] } := by
  decide

/-- C8 (fill record): every fill returned by `matchOrder` carries the order's id,
the price of a level that was resting on the opposite side before the call,
`gas_price_per_unit * fill_quantity` as cost, and the slippage measured against
the order's own limit price. -/
theorem matchOrder_fill_record (e : OrderExecutionEngine) (o : Order) :
    ∀ f ∈ (matchOrder e o).1,
      f.order_id = o.id ∧
      f.fill_price ∈ Side.keys (oppSide e o.is_buy) ∧
      f.gas_cost = gas_price_per_unit * f.fill_quantity ∧
      f.slippage = if o.is_buy then f.fill_price - o.price else o.price - f.fill_price := by
  intro f hf
  rw [matchOrder_fills] at hf
  obtain ⟨h1, ⟨v, hv⟩, h3, h4, _⟩ := matchLoop_fill_fields o _ _ f hf
  refine ⟨h1, ?_, h3, h4⟩
  exact List.mem_map.mpr ⟨(f.fill_price, v), hv, rfl⟩

/-- The first fill of the first order of `main`. -/
theorem scenarioBook_first_fill :
    Fill.mk 1 50000 10 0.01 (-15) ∈ (matchOrder scenarioBook buy_order1).1 := by
  rw [scenarioBook_eq]
  norm_num [wrap32, buy_order1, matchOrder, matchLoop, priceOk, Order.new, calculateGasCost,
    calculateSlippage, gas_price_per_unit]

/-- Witness of C8 on the first fill of the first order of `main`: its price 50000
is an ask level of the book and its cost is `0.001 * 10`. -/
theorem matchOrder_fill_record_witness :
    Fill.mk 1 50000 10 0.01 (-15) ∈ (matchOrder scenarioBook buy_order1).1 ∧
    (50000 : Price) ∈ Side.keys (oppSide scenarioBook buy_order1.is_buy) ∧
    (0.01 : ℚ) = gas_price_per_unit * (10 : Int) :=
  ⟨scenarioBook_first_fill,
    (matchOrder_fill_record scenarioBook buy_order1 _ scenarioBook_first_fill).2.1,
    (matchOrder_fill_record scenarioBook buy_order1 _ scenarioBook_first_fill).2.2.1⟩

/-- C9 (price priority): the fills of a BUY have strictly increasing prices, each
at most the limit; the fills of a SELL have strictly decreasing prices, each at
least the limit; and after the call no opposite-side level has a strictly better
price than any fill. -/
theorem matchOrder_price_priority (e : OrderExecutionEngine) (o : Order) (hwf : WF e) :
    (o.is_buy = true →
      ((matchOrder e o).1.map Fill.fill_price).Pairwise (· < ·) ∧
      (∀ f ∈ (matchOrder e o).1, f.fill_price ≤ o.price) ∧
      (∀ f ∈ (matchOrder e o).1, ∀ x ∈ (matchOrder e o).2.asks, ¬ x.1 < f.fill_price)) ∧
    (o.is_buy = false →
      ((matchOrder e o).1.map Fill.fill_price).Pairwise (· > ·) ∧
      (∀ f ∈ (matchOrder e o).1, f.fill_price ≥ o.price) ∧
      (∀ f ∈ (matchOrder e o).1, ∀ x ∈ (matchOrder e o).2.bids, ¬ x.1 > f.fill_price)) := by
  have hs := matchLoop_fills_sorted o _ o.remaining_qty _ (wf_opp hwf o.is_buy)
  have hp := matchLoop_fill_fields o o.remaining_qty (oppSide e o.is_buy)
  have hb := matchLoop_no_better o _ o.remaining_qty _ (wf_opp hwf o.is_buy)
  rw [← matchOrder_fills] at hs hp hb
  rw [← matchOrder_opp] at hb
  constructor
  · intro hbuy
    rw [hbuy] at hs hp hb
    refine ⟨?_, ?_, ?_⟩
    · simpa [before] using hs
    · intro f hf
      simpa [priceOk] using (hp f hf).2.2.2.2
    · intro f hf x hx
      simpa [before] using hb f hf x hx
  · intro hsell
    rw [hsell] at hs hp hb
    refine ⟨?_, ?_, ?_⟩
    · simpa [before] using hs
    · intro f hf
      simpa [priceOk] using (hp f hf).2.2.2.2
    · intro f hf x hx
      simpa [before] using hb f hf x hx

/-- Witness of C9 on the book and first order of `main`. -/
theorem matchOrder_price_priority_witness :
    WF scenarioBook ∧
    ((matchOrder scenarioBook buy_order1).1.map Fill.fill_price).Pairwise (· < ·) :=
  ⟨by decide, ((matchOrder_price_priority scenarioBook buy_order1 (by decide)).1 rfl).1⟩

/-- C5 (Scenario A): on the book built from the empty engine by the six
`addLiquidity` calls of `main`, with `gas_price_per_unit = 0.001`, matching
BUY 30 @ 50015 returns the fills `10 @ 50000` (cost 0.01, slippage -15) and
`15 @ 50010` (cost 0.015, slippage -5) in that order, leaves the asks equal to
`50020:20`, and adds the bid level `50015:5` in front of the unchanged bids. -/
theorem scenario_A :
    gas_price_per_unit = 0.001 ∧
    scenarioBook.asks = [(50000, 10), (50010, 15), (50020, 20)] ∧
    scenarioBook.bids = [(49990, 12), (49980, 18), (49970, 25)] ∧
    (matchOrder scenarioBook (Order.new 1 50015 30 true)).1
      = [Fill.mk 1 50000 10 0.01 (-15), Fill.mk 1 50010 15 0.015 (-5)] ∧
    (matchOrder scenarioBook (Order.new 1 50015 30 true)).2.asks = [(50020, 20)] ∧
    (matchOrder scenarioBook (Order.new 1 50015 30 true)).2.bids
      = [(50015, 5), (49990, 12), (49980, 18), (49970, 25)] := by
  rw [scenarioBook_eq]
  refine ⟨rfl, rfl, rfl, ?_, ?_, ?_⟩
  · norm_num [wrap32, matchOrder, matchLoop, priceOk, Order.new, calculateGasCost, calculateSlippage,
      gas_price_per_unit]
  · norm_num [wrap32, matchOrder, matchLoop, priceOk, Order.new]
  · norm_num [wrap32, matchOrder, matchLoop, priceOk, Order.new, Side.modify, before]

/-- The engine state left by Scenario A. -/
theorem scenario_A_state :
    submitOrder scenarioBook buy_order1
      = { bids := [(50015, 5), (49990, 12), (49980, 18), (49970, 25)],
          asks := [(50020, 20)],
          execution_history :=
            [Fill.mk 1 50000 10 0.01 (-15), Fill.mk 1 50010 15 0.015 (-5)] } := by
  rw [scenarioBook_eq]
  norm_num [wrap32, submitOrder, buy_order1, matchOrder, matchLoop, priceOk, Order.new, Side.modify,
    before, calculateGasCost, calculateSlippage, gas_price_per_unit]

/-- C4, as stated, fails: in the state left by Scenario A the SELL 5 @ 49985 does
not return the fill `5 @ 49990`, and the bid level 49990 is not reduced to 7. -/
theorem scenario_B_as_stated_fails :
    (matchOrder (submitOrder scenarioBook buy_order1) sell_order1).1
      ≠ [Fill.mk 2 49990 5 0.005 (-5)] ∧
    Side.find 49990 (matchOrder (submitOrder scenarioBook buy_order1) sell_order1).2.bids
      ≠ some 7 := by
  rw [scenario_A_state]
  constructor
  · norm_num [wrap32, sell_order1, matchOrder, matchLoop, priceOk, Order.new, calculateGasCost,
      calculateSlippage, gas_price_per_unit]
  · norm_num [wrap32, sell_order1, matchOrder, matchLoop, priceOk, Order.new, Side.find]

/-- C4 (Scenario B, amended): in the state left by Scenario A the best bid is the
level `50015:5` rested by the BUY; SELL 5 @ 49985 returns exactly one fill,
`5 @ 50015` with cost 0.005 and slippage -30, which removes that level; the bid
level 49990 keeps its 12 and the asks are untouched. -/
theorem scenario_B :
    getBestBid (submitOrder scenarioBook buy_order1) = 50015 ∧
    (matchOrder (submitOrder scenarioBook buy_order1) (Order.new 2 49985 5 false)).1
      = [Fill.mk 2 50015 5 0.005 (-30)] ∧
    (matchOrder (submitOrder scenarioBook buy_order1) (Order.new 2 49985 5 false)).2.bids
      = [(49990, 12), (49980, 18), (49970, 25)] ∧
    (matchOrder (submitOrder scenarioBook buy_order1) (Order.new 2 49985 5 false)).2.asks
      = [(50020, 20)] := by
  rw [scenario_A_state]
  refine ⟨rfl, ?_, ?_, ?_⟩
  · norm_num [wrap32, matchOrder, matchLoop, priceOk, Order.new, calculateGasCost,
      calculateSlippage, gas_price_per_unit]
  · norm_num [wrap32, matchOrder, matchLoop, priceOk, Order.new]
  · norm_num [wrap32, matchOrder, matchLoop, priceOk, Order.new]

/-- C3, as stated, fails: SELL 5 @ 0 (price `<= 0`, positive quantity) on the book
of `main` is not rejected; it returns a fill, the history grows and the bid side
changes. -/
theorem invalid_price_not_rejected :
    (Order.new 3 0 5 false).price ≤ 0 ∧
    (matchOrder scenarioBook (Order.new 3 0 5 false)).1 = [Fill.mk 3 49990 5 0.005 (-49990)] ∧
    (submitOrder scenarioBook (Order.new 3 0 5 false)).execution_history
      ≠ scenarioBook.execution_history ∧
    (submitOrder scenarioBook (Order.new 3 0 5 false)).bids ≠ scenarioBook.bids := by
  rw [scenarioBook_eq]
  refine ⟨le_refl _, ?_, ?_, ?_⟩
  · norm_num [wrap32, matchOrder, matchLoop, priceOk, Order.new, calculateGasCost,
      calculateSlippage, gas_price_per_unit]
  · norm_num [wrap32, submitOrder, matchOrder, matchLoop, priceOk, Order.new]
  · norm_num [wrap32, submitOrder, matchOrder, matchLoop, priceOk, Order.new]

/-- C3 (amended): an order whose quantity is zero or negative (with
`remaining_qty = quantity`) produces no fill, appends nothing to the execution
history and leaves both sides of the book as they were, whatever its price. -/
theorem submitOrder_nonpositive_quantity (e : OrderExecutionEngine) (o : Order)
    (hq : o.quantity ≤ 0) (hr : o.remaining_qty = o.quantity) :
    (matchOrder e o).1 = [] ∧ submitOrder e o = e := by
  have hrem : o.remaining_qty ≤ 0 := by omega
  have hfills : (matchOrder e o).1 = [] := by
    rw [matchOrder_fills, matchLoop_nonpos o hrem]
  refine ⟨hfills, ?_⟩
  have hown := matchOrder_own e o
  have hopp := matchOrder_opp e o
  rw [matchLoop_nonpos o hrem] at hown hopp
  simp only [if_neg (not_lt.mpr hrem)] at hown
  apply engine_ext_sides o.is_buy
  · simpa [submitOrder, ownSide] using hown
  · simpa [submitOrder, oppSide] using hopp
  · simp [submitOrder, hfills, matchOrder_history]

/-- Witness of C3 (amended): BUY 0 @ 50015 on the book of `main`. -/
theorem submitOrder_nonpositive_quantity_witness :
    (Order.new 4 50015 0 true).quantity ≤ 0 ∧
    submitOrder scenarioBook (Order.new 4 50015 0 true) = scenarioBook :=
  ⟨le_refl _, (submitOrder_nonpositive_quantity scenarioBook (Order.new 4 50015 0 true)
    (le_refl _) rfl).2⟩

end Execution

/-! ## Best prices -/

namespace Side

theorem head_isMaxKey {k : Price} {v : Int} {rest : Side} (hs : Sorted true ((k, v) :: rest)) :
    IsMaxKey ((k, v) :: rest) k := by
  have hs2 := sorted_cons.mp hs
  refine ⟨by simp [keys], ?_⟩
  intro q hq
  simp only [keys, List.map_cons, List.mem_cons, List.mem_map] at hq
  rcases hq with heq | ⟨x, hx, hxq⟩
  · exact le_of_eq heq
  · have := hs2.1 x hx
    simp only [before, if_true] at this
    rw [← hxq]
    exact le_of_lt this

theorem head_isMinKey {k : Price} {v : Int} {rest : Side} (hs : Sorted false ((k, v) :: rest)) :
    IsMinKey ((k, v) :: rest) k := by
  have hs2 := sorted_cons.mp hs
  refine ⟨by simp [keys], ?_⟩
  intro q hq
  simp only [keys, List.map_cons, List.mem_cons, List.mem_map] at hq
  rcases hq with heq | ⟨x, hx, hxq⟩
  · exact le_of_eq heq.symm
  · have := hs2.1 x hx
    simp only [before] at this
    rw [← hxq]
    exact le_of_lt (by simpa using this)

theorem bestOf_nil (desc : Bool) : BestOf desc [] 0 := by
  refine ⟨fun _ => rfl, fun h => absurd rfl h, fun _ => ?_⟩
  simp

theorem bestOf_cons {desc : Bool} {k : Price} {v : Int} {rest : Side}
    (hs : Sorted desc ((k, v) :: rest)) : BestOf desc ((k, v) :: rest) k := by
  refine ⟨fun h => by simp at h, fun _ => ?_, fun hpos => ?_⟩
  · cases desc
    · simpa using head_isMinKey hs
    · simpa using head_isMaxKey hs
  · have hk : 0 < k := hpos k (by simp [keys])
    constructor
    · intro h0
      rw [h0] at hk
      exact absurd hk (lt_irrefl 0)
    · intro h
      simp at h

end Side

namespace Execution

theorem getBestBid_bestOf {e : OrderExecutionEngine} (h : WF e) :
    Side.BestOf true e.bids (getBestBid e) := by
  obtain ⟨bids, asks, hist⟩ := e
  cases bids with
  | nil => exact Side.bestOf_nil true
  | cons x rest =>
    obtain ⟨k, v⟩ := x
    exact Side.bestOf_cons h.1

theorem getBestAsk_bestOf {e : OrderExecutionEngine} (h : WF e) :
    Side.BestOf false e.asks (getBestAsk e) := by
  obtain ⟨bids, asks, hist⟩ := e
  cases asks with
  | nil => exact Side.bestOf_nil false
  | cons x rest =>
    obtain ⟨k, v⟩ := x
    exact Side.bestOf_cons h.2

end Execution

namespace Book

theorem book_getBestBid_bestOf {b : OrderBook} (h : WF b) :
    Side.BestOf true b.bids (getBestBid b) := by
  obtain ⟨bids, asks⟩ := b
  cases bids with
  | nil => exact Side.bestOf_nil true
  | cons x rest =>
    obtain ⟨k, v⟩ := x
    exact Side.bestOf_cons h.1

theorem book_getBestAsk_bestOf {b : OrderBook} (h : WF b) :
    Side.BestOf false b.asks (getBestAsk b) := by
  obtain ⟨bids, asks⟩ := b
  cases asks with
  | nil => exact Side.bestOf_nil false
  | cons x rest =>
    obtain ⟨k, v⟩ := x
    exact Side.bestOf_cons h.2

theorem mainBook_eq :
    mainBook = { bids := [(123.50, 100), (123.45, 50), (123.40, 150)],
                 asks := [(123.55, 200), (123.60, 75)] } := by
  norm_num [wrap32, mainBook, addOrder, Side.modify, before]

theorem mainBook_wf : WF mainBook := by
  rw [mainBook_eq]
  norm_num [WF, Side.Sorted, before]

end Book

/-- C10 (best prices): in both classes `getBestBid()` is `0.0` on an empty bid
side and the maximum bid key otherwise, `getBestAsk()` is `0.0` on an empty ask
side and the minimum ask key otherwise; so when all keys of the side are
positive the result is `0.0` exactly when the side is empty. -/
theorem best_prices (e : Execution.OrderExecutionEngine) (b : Book.OrderBook)
    (he : Execution.WF e) (hb : Book.WF b) :
    ((e.bids = [] → Execution.getBestBid e = 0) ∧
     (e.bids ≠ [] → Side.IsMaxKey e.bids (Execution.getBestBid e)) ∧
     ((∀ k ∈ Side.keys e.bids, 0 < k) → (Execution.getBestBid e = 0 ↔ e.bids = [])) ∧
     (e.asks = [] → Execution.getBestAsk e = 0) ∧
     (e.asks ≠ [] → Side.IsMinKey e.asks (Execution.getBestAsk e)) ∧
     ((∀ k ∈ Side.keys e.asks, 0 < k) → (Execution.getBestAsk e = 0 ↔ e.asks = []))) ∧
    ((b.bids = [] → Book.getBestBid b = 0) ∧
     (b.bids ≠ [] → Side.IsMaxKey b.bids (Book.getBestBid b)) ∧
     ((∀ k ∈ Side.keys b.bids, 0 < k) → (Book.getBestBid b = 0 ↔ b.bids = [])) ∧
     (b.asks = [] → Book.getBestAsk b = 0) ∧
     (b.asks ≠ [] → Side.IsMinKey b.asks (Book.getBestAsk b)) ∧
     ((∀ k ∈ Side.keys b.asks, 0 < k) → (Book.getBestAsk b = 0 ↔ b.asks = []))) := by
  have h1 := Execution.getBestBid_bestOf he
  have h2 := Execution.getBestAsk_bestOf he
  have h3 := Book.book_getBestBid_bestOf hb
  have h4 := Book.book_getBestAsk_bestOf hb
  simp only [Side.BestOf, if_true, Bool.false_eq_true, if_false] at h1 h2 h3 h4
  exact ⟨⟨h1.1, h1.2.1, h1.2.2, h2.1, h2.2.1, h2.2.2⟩, ⟨h3.1, h3.2.1, h3.2.2, h4.1, h4.2.1, h4.2.2⟩⟩

/-- Witness of C10 on the books of the two `main` functions. -/
theorem best_prices_witness :
    Execution.WF Execution.scenarioBook ∧ Book.WF Book.mainBook ∧
    Side.IsMaxKey Execution.scenarioBook.bids (Execution.getBestBid Execution.scenarioBook) ∧
    Side.IsMinKey Book.mainBook.asks (Book.getBestAsk Book.mainBook) :=
  ⟨by decide, Book.mainBook_wf,
    (best_prices Execution.scenarioBook Book.mainBook (by decide) Book.mainBook_wf).1.2.1
      (by decide),
    (best_prices Execution.scenarioBook Book.mainBook (by decide) Book.mainBook_wf).2.2.2.2.2.1
      (by simp [Book.mainBook_eq])⟩

/-! ## Invariants over sequences of calls -/

namespace Execution

theorem allPositive_of_sides {e : OrderExecutionEngine} (b : Bool)
    (h1 : ∀ x ∈ ownSide e b, 0 < x.2) (h2 : ∀ x ∈ oppSide e b, 0 < x.2) : AllPositive e := by
  cases b
  · exact ⟨h2, h1⟩
  · exact ⟨h1, h2⟩

theorem allPositive_own {e : OrderExecutionEngine} (h : AllPositive e) (b : Bool) :
    ∀ x ∈ ownSide e b, 0 < x.2 := by
  cases b
  · exact h.2
  · exact h.1

theorem allPositive_opp {e : OrderExecutionEngine} (h : AllPositive e) (b : Bool) :
    ∀ x ∈ oppSide e b, 0 < x.2 := by
  cases b
  · exact h.1
  · exact h.2

/-! ### Crossing -/

theorem uncrossed_iff (e : OrderExecutionEngine) (b : Bool) :
    Uncrossed e ↔ ∀ x ∈ ownSide e b, ∀ y ∈ oppSide e b, before (!b) x.1 y.1 := by
  cases b
  · simp only [Uncrossed, ownSide, oppSide, before, Bool.not_false, if_true, Bool.false_eq_true,
      if_false]
    exact ⟨fun h x hx y hy => h y hy x hx, fun h y hy x hx => h x hx y hy⟩
  · simp only [Uncrossed, ownSide, oppSide, before, Bool.not_true, Bool.false_eq_true, if_false,
      if_true]

theorem before_of_not_priceOk {b : Bool} {y P : Price} (h : ¬ priceOk b y P) :
    before (!b) P y := by
  cases b <;> simp [priceOk, before] at h ⊢ <;> exact h

theorem matchOrder_uncrossed {e : OrderExecutionEngine} (hwf : WF e) (h : Uncrossed e)
    (o : Order) : Uncrossed (matchOrder e o).2 := by
  rw [uncrossed_iff _ o.is_buy] at h ⊢
  intro x hx y hy
  rw [matchOrder_own] at hx
  rw [matchOrder_opp] at hy
  obtain ⟨v, hv⟩ := matchLoop_key_mem o _ _ hy
  split_ifs at hx with h1
  · rcases Side.mem_modify hx with h2 | ⟨h2, _⟩
    · exact h x h2 (y.1, v) hv
    · rw [h2]
      exact before_of_not_priceOk (matchLoop_rest_fails o _ _ (wf_opp hwf _) h1 y hy)
  · exact h x hx (y.1, v) hv

theorem submitOrder_uncrossed {e : OrderExecutionEngine} (hwf : WF e) (h : Uncrossed e)
    (o : Order) : Uncrossed (submitOrder e o) := by
  have h2 := matchOrder_uncrossed hwf h o
  unfold Uncrossed at h2 ⊢
  rw [(submitOrder_sides e o).1, (submitOrder_sides e o).2]
  exact h2

theorem addLiquidity_uncrossed {e : OrderExecutionEngine} (h : Uncrossed e) (price : Price)
    (quantity : Int) (is_buy : Bool)
    (hnc : (Op.addLiquidity price quantity is_buy).NonCrossing e) :
    Uncrossed (addLiquidity e price quantity is_buy) := by
  cases is_buy
  · simp only [Op.NonCrossing, Bool.false_eq_true, if_false] at hnc
    intro b hb a ha
    simp only [addLiquidity, Bool.false_eq_true, if_false] at hb ha
    rcases Side.mem_modify ha with h2 | ⟨h2, _⟩
    · exact h b hb a h2
    · rw [h2]
      exact hnc b hb
  · simp only [Op.NonCrossing, if_true] at hnc
    intro b hb a ha
    simp only [addLiquidity, if_true] at hb ha
    rcases Side.mem_modify hb with h2 | ⟨h2, _⟩
    · exact h b h2 a ha
    · rw [h2]
      exact hnc a ha

theorem step_wf {e : OrderExecutionEngine} (h : WF e) (op : Op) : WF (step e op) := by
  cases op with
  | addLiquidity price quantity is_buy => exact addLiquidity_wf h price quantity is_buy
  | submitOrder order => exact submitOrder_wf h order

theorem step_uncrossed {e : OrderExecutionEngine} (hwf : WF e) (h : Uncrossed e) {op : Op}
    (hnc : op.NonCrossing e) : Uncrossed (step e op) := by
  cases op with
  | addLiquidity price quantity is_buy => exact addLiquidity_uncrossed h price quantity is_buy hnc
  | submitOrder order => exact submitOrder_uncrossed hwf h order

theorem run_wf_uncrossed {e : OrderExecutionEngine} (hwf : WF e) (h : Uncrossed e)
    (ops : List Op) (hops : Admissible e ops) : WF (run e ops) ∧ Uncrossed (run e ops) := by
  induction ops generalizing e with
  | nil => exact ⟨hwf, h⟩
  | cons op rest ih =>
    simp only [run, List.foldl_cons]
    exact ih (step_wf hwf op) (step_uncrossed hwf h hops.2.1) hops.2.2

theorem best_lt_of_uncrossed {e : OrderExecutionEngine} (h : Uncrossed e) (hb : e.bids ≠ [])
    (ha : e.asks ≠ []) : getBestBid e < getBestAsk e := by
  obtain ⟨bids, asks, hist⟩ := e
  cases bids with
  | nil => exact absurd rfl hb
  | cons x xs =>
    cases asks with
    | nil => exact absurd rfl ha
    | cons y ys =>
      exact h x (List.mem_cons_self _ _) y (List.mem_cons_self _ _)

/-- C2, as stated, fails: after `addLiquidity(100, 10, true)`,
`addLiquidity(90, 10, false)` and the submission of BUY 1 @ 50, both sides are
non-empty and the best bid 100 is not below the best ask 90. -/
theorem crossed_book_after_submit :
    (∀ op ∈ crossingOps, op.Positive) ∧
    (run OrderExecutionEngine.empty crossingOps).bids ≠ [] ∧
    (run OrderExecutionEngine.empty crossingOps).asks ≠ [] ∧
    getBestBid (run OrderExecutionEngine.empty crossingOps) = 100 ∧
    getBestAsk (run OrderExecutionEngine.empty crossingOps) = 90 ∧
    ¬ getBestBid (run OrderExecutionEngine.empty crossingOps)
      < getBestAsk (run OrderExecutionEngine.empty crossingOps) := by
  decide

/-- C2 (amended): from the empty engine, after any sequence of `submitOrder`
calls and of `addLiquidity` calls with `price > 0`, `quantity > 0` that do not
themselves cross the book (a bid is added below every resting ask, an ask above
every resting bid), when a `submitOrder` call completes with both sides
non-empty, `getBestBid() < getBestAsk()`. -/
theorem no_stale_crossed_book (ops : List Op) (o : Order)
    (hops : Admissible OrderExecutionEngine.empty ops)
    (hb : (submitOrder (run OrderExecutionEngine.empty ops) o).bids ≠ [])
    (ha : (submitOrder (run OrderExecutionEngine.empty ops) o).asks ≠ []) :
    getBestBid (submitOrder (run OrderExecutionEngine.empty ops) o)
      < getBestAsk (submitOrder (run OrderExecutionEngine.empty ops) o) := by
  have hwf0 : WF OrderExecutionEngine.empty := by decide
  have hu0 : Uncrossed OrderExecutionEngine.empty := by
    simp [Uncrossed, OrderExecutionEngine.empty]
  obtain ⟨hwf, hu⟩ := run_wf_uncrossed hwf0 hu0 ops hops
  exact best_lt_of_uncrossed (submitOrder_uncrossed hwf hu o) hb ha

/-- Witness of C2 (amended): the six `addLiquidity` calls of `main` followed by the
submission of BUY 30 @ 50015. -/
theorem no_stale_crossed_book_witness :
    Admissible OrderExecutionEngine.empty (mainOps.take 6) ∧
    getBestBid (submitOrder (run OrderExecutionEngine.empty (mainOps.take 6)) buy_order1)
      < getBestAsk (submitOrder (run OrderExecutionEngine.empty (mainOps.take 6)) buy_order1) :=
  ⟨by decide, no_stale_crossed_book (mainOps.take 6) buy_order1 (by decide) (by decide)
    (by decide)⟩

end Execution

/-! ## `OrderBook::removeOrder` -/

namespace Book

theorem removeLevel_sorted {desc : Bool} {m : Side} (hs : Side.Sorted desc m) (price : Price)
    (quantity : Int) : Side.Sorted desc (removeLevel desc price quantity m) := by
  unfold removeLevel
  simp only
  split_ifs
  · exact Side.sorted_erase (Side.sorted_modify hs)
  · exact Side.sorted_modify hs

theorem removeLevel_find_self {desc : Bool} {m : Side} (hs : Side.Sorted desc m) (price : Price)
    (quantity : Int) :
    Side.find price (removeLevel desc price quantity m)
      = if 0 < wrap32 (Side.level price m - quantity)
        then some (wrap32 (Side.level price m - quantity)) else none := by
  unfold removeLevel
  simp only [Side.level_modify_self hs]
  by_cases h : wrap32 (Side.level price m - quantity) ≤ 0
  · rw [if_pos h, if_neg (not_lt.mpr h)]
    exact Side.find_erase_self (Side.sorted_modify hs)
  · rw [if_neg h, if_pos (not_le.mp h)]
    exact Side.find_modify_self hs

theorem removeLevel_find_other {desc : Bool} (m : Side) {price q : Price} (quantity : Int)
    (hq : q ≠ price) :
    Side.find q (removeLevel desc price quantity m) = Side.find q m := by
  unfold removeLevel
  simp only
  split_ifs
  · rw [Side.find_erase_other hq, Side.find_modify_other hq]
  · exact Side.find_modify_other hq

theorem side_removeOrder (b : OrderBook) (price : Price) (quantity : Int) (is_buy : Bool) :
    side (removeOrder b price quantity is_buy) is_buy
      = removeLevel is_buy price quantity (side b is_buy) ∧
    side (removeOrder b price quantity is_buy) (!is_buy) = side b (!is_buy) := by
  cases is_buy <;> simp [removeOrder, side]

theorem wf_side {b : OrderBook} (h : WF b) (is_buy : Bool) :
    Side.Sorted is_buy (side b is_buy) := by
  cases is_buy
  · exact h.2
  · exact h.1

theorem getBest_bestOf {b : OrderBook} (is_buy : Bool)
    (h : Side.Sorted is_buy (side b is_buy)) :
    Side.BestOf is_buy (side b is_buy) (getBest b is_buy) := by
  obtain ⟨bids, asks⟩ := b
  cases is_buy
  · cases asks with
    | nil => exact Side.bestOf_nil false
    | cons x rest => exact Side.bestOf_cons h
  · cases bids with
    | nil => exact Side.bestOf_nil true
    | cons x rest => exact Side.bestOf_cons h

/-- C7, as stated, fails: on the book whose only bid is `10:-5` (added with
`addOrder(Order(1, 10.0, -5, true))`), `removeOrder(10.0, 2147483647, true)`
makes `old - quantity = -2147483652`, which is `<= 0`, so the level should be
absent; the `int` subtraction wraps and the level is kept with 2147483644. -/
theorem removeOrder_overflow_keeps_level :
    WF negBidBook ∧
    Side.level 10 (side negBidBook true) - 2147483647 = -2147483652 ∧
    Side.find 10 (side (removeOrder negBidBook 10 2147483647 true) true) = some 2147483644 := by
  decide

/-- C7 (amended): when `old - quantity` is representable as an `int` (the `-=`
does not overflow), after `removeOrder(price, quantity, side)` the level at
`price` on that side holds `old - quantity` when that is `> 0` and is absent
otherwise (`old = 0` for an absent level); every other level of that side and
the whole other side are unchanged; and when the level is removed, `price` is no
longer a key and the best-price query of the side returns the extreme remaining
key, not the removed price, when the side is still non-empty, and the empty-side
value `0.0` when the side is left empty. -/
theorem removeOrder_clamp_erase (b : OrderBook) (price : Price) (quantity : Int)
    (is_buy : Bool) (hwf : WF b)
    (hfit : IsInt32 (Side.level price (side b is_buy) - quantity)) :
    Side.find price (side (removeOrder b price quantity is_buy) is_buy)
      = (if 0 < Side.level price (side b is_buy) - quantity
         then some (Side.level price (side b is_buy) - quantity) else none) ∧
    (∀ q, q ≠ price →
      Side.find q (side (removeOrder b price quantity is_buy) is_buy)
        = Side.find q (side b is_buy)) ∧
    side (removeOrder b price quantity is_buy) (!is_buy) = side b (!is_buy) ∧
    (Side.level price (side b is_buy) - quantity ≤ 0 →
      price ∉ Side.keys (side (removeOrder b price quantity is_buy) is_buy) ∧
      (side (removeOrder b price quantity is_buy) is_buy = [] →
        getBest (removeOrder b price quantity is_buy) is_buy = 0) ∧
      (side (removeOrder b price quantity is_buy) is_buy ≠ [] →
        (if is_buy
         then Side.IsMaxKey (side (removeOrder b price quantity is_buy) is_buy)
           (getBest (removeOrder b price quantity is_buy) is_buy)
         else Side.IsMinKey (side (removeOrder b price quantity is_buy) is_buy)
           (getBest (removeOrder b price quantity is_buy) is_buy)) ∧
        getBest (removeOrder b price quantity is_buy) is_buy ≠ price)) := by
  have hs := wf_side hwf is_buy
  have hside := side_removeOrder b price quantity is_buy
  have hself := removeLevel_find_self hs price quantity
  have hsorted := removeLevel_sorted hs price quantity
  rw [Execution.wrap32_of_isInt32 hfit] at hself
  rw [← hside.1] at hself hsorted
  refine ⟨hself, ?_, hside.2, ?_⟩
  · intro q hq
    rw [hside.1]
    exact removeLevel_find_other _ quantity hq
  · intro hle
    rw [if_neg (not_lt.mpr hle)] at hself
    have hnot : price ∉ Side.keys (side (removeOrder b price quantity is_buy) is_buy) :=
      Side.find_eq_none_iff.mp hself
    have hbest := getBest_bestOf is_buy hsorted
    refine ⟨hnot, hbest.1, fun hne => ⟨hbest.2.1 hne, ?_⟩⟩
    intro heq
    have hmem : getBest (removeOrder b price quantity is_buy) is_buy
        ∈ Side.keys (side (removeOrder b price quantity is_buy) is_buy) := by
      have := hbest.2.1 hne
      cases is_buy
      · exact this.1
      · exact this.1
    rw [heq] at hmem
    exact hnot hmem

theorem mainBook_level_bid : Side.level 123.50 (side mainBook true) = 100 := by
  rw [mainBook_eq]
  norm_num [side, Side.level, Side.find]

/-- Witness of C7 (amended): the call `removeOrder(123.50, 100, true)` of `main`
brings the bid level 123.50 from 100 to 0 and removes it. -/
theorem removeOrder_clamp_erase_witness :
    WF mainBook ∧ IsInt32 (Side.level 123.50 (side mainBook true) - 100) ∧
    Side.find 123.50 (side (removeOrder mainBook 123.50 100 true) true)
      = (if 0 < Side.level 123.50 (side mainBook true) - 100
         then some (Side.level 123.50 (side mainBook true) - 100) else none) :=
  ⟨mainBook_wf, by rw [mainBook_level_bid]; decide,
    (removeOrder_clamp_erase mainBook 123.50 100 true mainBook_wf
      (by rw [mainBook_level_bid]; decide)).1⟩

end Book

/-! ## `OrderBook::getSpread` -/

namespace Book

theorem best_of_nonempty_pos (b : OrderBook) :
    (b.bids ≠ [] → (∀ k ∈ Side.keys b.bids, 0 < k) → getBestBid b ≠ 0) ∧
    (b.asks ≠ [] → (∀ k ∈ Side.keys b.asks, 0 < k) → getBestAsk b ≠ 0) := by
  obtain ⟨bids, asks⟩ := b
  constructor
  · intro hne hpos
    cases bids with
    | nil => exact absurd rfl hne
    | cons x rest => exact ne_of_gt (hpos x.1 (by simp [Side.keys]))
  · intro hne hpos
    cases asks with
    | nil => exact absurd rfl hne
    | cons x rest => exact ne_of_gt (hpos x.1 (by simp [Side.keys]))

theorem best_of_empty (b : OrderBook) :
    (b.bids = [] → getBestBid b = 0) ∧ (b.asks = [] → getBestAsk b = 0) := by
  obtain ⟨bids, asks⟩ := b
  constructor
  · intro h
    simp only at h
    subst h
    rfl
  · intro h
    simp only at h
    subst h
    rfl

/-- C11, as stated, fails: with the bid `0.0:5` and the ask `10.0:5` both sides
are non-empty and `getBestAsk() - getBestBid()` is 10, but `getSpread()`
returns `0.0`. -/
theorem getSpread_zero_with_both_sides :
    zeroBidBook.bids ≠ [] ∧ zeroBidBook.asks ≠ [] ∧
    getBestAsk zeroBidBook - getBestBid zeroBidBook = 10 ∧
    getSpread zeroBidBook = 0 := by
  have h : zeroBidBook = { bids := [(0, 5)], asks := [(10, 5)] } := by decide
  rw [h]
  norm_num [getSpread, getBestBid, getBestAsk]

/-- C11 (amended): when both sides are non-empty and neither best price is `0.0`
(in particular when all stored prices are `> 0`), `getSpread()` returns
`getBestAsk() - getBestBid()`; when either side is empty, or a best price is
`0.0`, it returns `0.0`. -/
theorem getSpread_spec (b : OrderBook) :
    (b.bids ≠ [] → b.asks ≠ [] → getBestBid b ≠ 0 → getBestAsk b ≠ 0 →
      getSpread b = getBestAsk b - getBestBid b) ∧
    (b.bids ≠ [] → b.asks ≠ [] → (∀ k ∈ Side.keys b.bids, 0 < k) →
      (∀ k ∈ Side.keys b.asks, 0 < k) → getSpread b = getBestAsk b - getBestBid b) ∧
    (b.bids = [] ∨ b.asks = [] → getSpread b = 0) ∧
    (getBestBid b = 0 ∨ getBestAsk b = 0 → getSpread b = 0) := by
  have hgen : getBestBid b ≠ 0 → getBestAsk b ≠ 0 →
      getSpread b = getBestAsk b - getBestBid b := by
    intro h1 h2
    simp [getSpread, h1, h2]
  have hzero : getBestBid b = 0 ∨ getBestAsk b = 0 → getSpread b = 0 := by
    intro h
    simp only [getSpread, if_pos h]
  refine ⟨fun _ _ => hgen, ?_, ?_, hzero⟩
  · intro hb ha hbp hap
    exact hgen ((best_of_nonempty_pos b).1 hb hbp) ((best_of_nonempty_pos b).2 ha hap)
  · intro h
    rcases h with h | h
    · exact hzero (Or.inl ((best_of_empty b).1 h))
    · exact hzero (Or.inr ((best_of_empty b).2 h))

/-- Witness of C11 (amended): on the book of `main` the spread is
`123.55 - 123.50`. -/
theorem getSpread_spec_witness :
    mainBook.bids ≠ [] ∧ mainBook.asks ≠ [] ∧ getBestBid mainBook ≠ 0 ∧
    getBestAsk mainBook ≠ 0 ∧
    getSpread mainBook = getBestAsk mainBook - getBestBid mainBook :=
  ⟨by simp [mainBook_eq], by simp [mainBook_eq],
    by rw [mainBook_eq]; norm_num [getBestBid],
    by rw [mainBook_eq]; norm_num [getBestAsk],
    (getSpread_spec mainBook).1 (by simp [mainBook_eq]) (by simp [mainBook_eq])
      (by rw [mainBook_eq]; norm_num [getBestBid])
      (by rw [mainBook_eq]; norm_num [getBestAsk])⟩

end Book

/-! ## Cost model -/

namespace Execution

/-- With exact arithmetic in place of `double` rounding, the cost is additive. -/
theorem calculateGasCost_add_exact (q1 q2 : Int) :
    calculateGasCost q1 + calculateGasCost q2 = calculateGasCost (q1 + q2) := by
  simp only [calculateGasCost, Int.cast_add]
  ring

theorem log2_eq {x : ℚ} {e : Int} (hx : 0 < x) (h1 : (2 : ℚ) ^ e ≤ x)
    (h2 : x < (2 : ℚ) ^ (e + 1)) : Int.log 2 x = e := by
  have hb : 1 < 2 := by norm_num
  have a1 : e ≤ Int.log 2 x := (Int.zpow_le_iff_le_log hb hx).mp (by exact_mod_cast h1)
  have a2 : Int.log 2 x < e + 1 := (Int.lt_zpow_iff_log_lt hb hx).mp (by exact_mod_cast h2)
  omega

theorem roundHalfEven_of_floor {x : ℚ} {f : Int} (h1 : (f : ℚ) ≤ x) (h2 : x < f + 1) :
    roundHalfEven x = if x - f < 1 / 2 then f
      else if 1 / 2 < x - f then f + 1 else if f % 2 = 0 then f else f + 1 := by
  have hf : ⌊x⌋ = f := Int.floor_eq_iff.mpr ⟨h1, h2⟩
  unfold roundHalfEven
  rw [hf]

/-- Evaluation of `binary64` once the binade of `x` is known. -/
theorem binary64_eval {x : ℚ} (e : Int) (hx : 0 < x) (h1 : (2 : ℚ) ^ e ≤ x)
    (h2 : x < (2 : ℚ) ^ (e + 1)) :
    binary64 x = roundHalfEven (x / 2 ^ (e - 52)) * 2 ^ (e - 52) := by
  unfold binary64
  rw [if_neg (ne_of_gt hx), abs_of_pos hx, log2_eq hx h1 h2]

/-- The stored rate is the double `0x3F50624DD2F1A9FC`. -/
theorem gas_price_per_unit64_eq : gas_price_per_unit64 = 4611686018427388 / 2 ^ 62 := by
  unfold gas_price_per_unit64
  rw [binary64_eval (-10) (by norm_num) (by norm_num) (by norm_num)]
  rw [roundHalfEven_of_floor (f := 4611686018427387) (by norm_num) (by norm_num)]
  norm_num

theorem calculateGasCost64_one : calculateGasCost64 1 = 4611686018427388 / 2 ^ 62 := by
  unfold calculateGasCost64
  rw [gas_price_per_unit64_eq]
  rw [binary64_eval (-10) (by norm_num) (by norm_num) (by norm_num)]
  rw [roundHalfEven_of_floor (f := 4611686018427388) (by norm_num) (by norm_num)]
  norm_num

theorem calculateGasCost64_nine : calculateGasCost64 9 = 5188146770730812 / 2 ^ 59 := by
  unfold calculateGasCost64
  rw [gas_price_per_unit64_eq]
  rw [binary64_eval (-7) (by norm_num) (by norm_num) (by norm_num)]
  rw [roundHalfEven_of_floor (f := 5188146770730811) (by norm_num) (by norm_num)]
  norm_num

theorem calculateGasCost64_ten : calculateGasCost64 10 = 5764607523034235 / 2 ^ 59 := by
  unfold calculateGasCost64
  rw [gas_price_per_unit64_eq]
  rw [binary64_eval (-7) (by norm_num) (by norm_num) (by norm_num)]
  rw [roundHalfEven_of_floor (f := 5764607523034235) (by norm_num) (by norm_num)]
  norm_num

theorem calculateGasCost64_one_plus_nine :
    binary64 (calculateGasCost64 1 + calculateGasCost64 9) = 5764607523034236 / 2 ^ 59 := by
  rw [calculateGasCost64_one, calculateGasCost64_nine]
  rw [binary64_eval (-7) (by norm_num) (by norm_num) (by norm_num)]
  rw [roundHalfEven_of_floor (f := 5764607523034235) (by norm_num) (by norm_num)]
  norm_num

theorem roundHalfEven_err (y : ℚ) : |(roundHalfEven y : ℚ) - y| ≤ 1 / 2 := by
  have h1 : ((⌊y⌋ : Int) : ℚ) ≤ y := Int.floor_le y
  have h2 : y < ((⌊y⌋ : Int) : ℚ) + 1 := Int.lt_floor_add_one y
  unfold roundHalfEven
  rw [abs_le]
  split_ifs <;> push_cast <;> constructor <;> linarith

/-- Rounding to binary64 moves a non-negative number by at most half a unit in
the last place: a relative error of at most `2^-53`. -/
theorem binary64_err {x : ℚ} (hx : 0 ≤ x) : |binary64 x - x| ≤ x / 2 ^ 53 := by
  rcases eq_or_lt_of_le hx with h0 | hpos
  · rw [← h0]
    simp [binary64]
  · have hlog : (2 : ℚ) ^ Int.log 2 x ≤ x := by
      have := Int.zpow_log_le_self (b := 2) (r := x) (by norm_num) hpos
      exact_mod_cast this
    have hulp : (0 : ℚ) < 2 ^ (Int.log 2 x - 52) := zpow_pos (by norm_num) _
    have hsplit : (2 : ℚ) ^ (Int.log 2 x - 52) = 2 ^ Int.log 2 x / 2 ^ 52 := by
      rw [zpow_sub₀ (by norm_num : (2 : ℚ) ≠ 0)]
      norm_num
    have herr := roundHalfEven_err (x / 2 ^ (Int.log 2 x - 52))
    unfold binary64
    rw [if_neg (ne_of_gt hpos), abs_of_pos hpos]
    have hrw : (roundHalfEven (x / 2 ^ (Int.log 2 x - 52)) : ℚ) * 2 ^ (Int.log 2 x - 52) - x
        = ((roundHalfEven (x / 2 ^ (Int.log 2 x - 52)) : ℚ) - x / 2 ^ (Int.log 2 x - 52))
          * 2 ^ (Int.log 2 x - 52) := by
      field_simp
    rw [hrw, abs_mul, abs_of_pos hulp]
    calc |(roundHalfEven (x / 2 ^ (Int.log 2 x - 52)) : ℚ) - x / 2 ^ (Int.log 2 x - 52)|
          * 2 ^ (Int.log 2 x - 52)
        ≤ 1 / 2 * 2 ^ (Int.log 2 x - 52) := by
          exact mul_le_mul_of_nonneg_right herr (le_of_lt hulp)
      _ = 2 ^ Int.log 2 x / 2 ^ 53 := by
          rw [hsplit]
          ring
      _ ≤ x / 2 ^ 53 := by
          apply div_le_div_of_nonneg_right hlog
          positivity

theorem binary64_nonneg {x : ℚ} (hx : 0 ≤ x) : 0 ≤ binary64 x := by
  have h := binary64_err hx
  rw [abs_le] at h
  have : x / 2 ^ 53 ≤ x := by
    apply div_le_self hx
    norm_num
  linarith [h.1]

theorem gas_price_per_unit64_nonneg : 0 ≤ gas_price_per_unit64 :=
  binary64_nonneg (by norm_num)

/-- C12, as stated, fails in the code's `double` arithmetic: the sum
`calculateGasCost(1) + calculateGasCost(9)` is the double
`0.010000000000000002` while `calculateGasCost(10)` is the double `0.01`, one
unit in the last place below. -/
theorem cost_linearity_fails_in_double :
    binary64 (calculateGasCost64 1 + calculateGasCost64 9) = 5764607523034236 / 2 ^ 59 ∧
    calculateGasCost64 10 = 5764607523034235 / 2 ^ 59 ∧
    binary64 (calculateGasCost64 1 + calculateGasCost64 9) ≠ calculateGasCost64 (1 + 9) := by
  refine ⟨calculateGasCost64_one_plus_nine, calculateGasCost64_ten, ?_⟩
  rw [calculateGasCost64_one_plus_nine, show (1 : Int) + 9 = 10 from rfl, calculateGasCost64_ten]
  norm_num

/-- C12 (cost linearity, amended): for non-negative `int`s `q1`, `q2` whose sum
is an `int`, the costs are additive in exact arithmetic, and in the code's
`double` arithmetic `calculateGasCost(q1) + calculateGasCost(q2)` differs from
`calculateGasCost(q1 + q2)` by at most `2^-51` times the stored rate times
`q1 + q2`. -/
theorem cost_linear_up_to_rounding (q1 q2 : Int) (h1 : 0 ≤ q1) (h2 : 0 ≤ q2)
    (_h3 : q1 + q2 ≤ 2147483647) :
    calculateGasCost q1 + calculateGasCost q2 = calculateGasCost (q1 + q2) ∧
    |binary64 (calculateGasCost64 q1 + calculateGasCost64 q2) - calculateGasCost64 (q1 + q2)|
      ≤ gas_price_per_unit64 * ((q1 + q2 : Int) : ℚ) / 2 ^ 51 := by
  refine ⟨calculateGasCost_add_exact q1 q2, ?_⟩
  have hg := gas_price_per_unit64_nonneg
  have hq1 : (0 : ℚ) ≤ q1 := by exact_mod_cast h1
  have hq2 : (0 : ℚ) ≤ q2 := by exact_mod_cast h2
  have ha : 0 ≤ gas_price_per_unit64 * (q1 : ℚ) := mul_nonneg hg hq1
  have hb : 0 ≤ gas_price_per_unit64 * (q2 : ℚ) := mul_nonneg hg hq2
  have e1 := binary64_err ha
  have e2 := binary64_err hb
  have n1 := binary64_nonneg ha
  have n2 := binary64_nonneg hb
  have e3 := binary64_err (add_nonneg n1 n2)
  have hab : 0 ≤ gas_price_per_unit64 * ((q1 + q2 : Int) : ℚ) := by
    push_cast
    nlinarith
  have e4 := binary64_err hab
  unfold calculateGasCost64
  push_cast at e4 hab ⊢
  rw [abs_le] at e1 e2 e3 e4 ⊢
  constructor <;> nlinarith [e1.1, e1.2, e2.1, e2.2, e3.1, e3.2, e4.1, e4.2]

/-- Witness of C12 (amended) at `q1 = 1`, `q2 = 9`. -/
theorem cost_linear_up_to_rounding_witness :
    (0 : Int) ≤ 1 ∧ (0 : Int) ≤ 9 ∧ (1 : Int) + 9 ≤ 2147483647 ∧
    |binary64 (calculateGasCost64 1 + calculateGasCost64 9) - calculateGasCost64 (1 + 9)|
      ≤ gas_price_per_unit64 * (((1 : Int) + 9 : Int) : ℚ) / 2 ^ 51 :=
  ⟨by decide, by decide, by decide,
    (cost_linear_up_to_rounding 1 9 (by decide) (by decide) (by decide)).2⟩

/-- C13 (slippage sign): for a BUY the slippage is negative exactly when the
execution price is below the limit and positive exactly when it is above; for a
SELL it is negative exactly when the execution price is above the limit and
positive exactly when it is below. -/
theorem calculateSlippage_sign (limit exec : Price) :
    (calculateSlippage limit exec true < 0 ↔ exec < limit) ∧
    (calculateSlippage limit exec false < 0 ↔ exec > limit) ∧
    (0 < calculateSlippage limit exec true ↔ exec > limit) ∧
    (0 < calculateSlippage limit exec false ↔ exec < limit) := by
  simp only [calculateSlippage, if_true, Bool.false_eq_true, if_false]
  refine ⟨?_, ?_, ?_, ?_⟩
  · exact sub_neg
  · exact sub_neg
  · exact sub_pos
  · exact sub_pos

end Execution

/-! ## Adding liquidity -/

namespace Book

theorem side_addOrder (b : OrderBook) (order : Order) :
    side (addOrder b order) order.is_buy
      = Side.modify order.is_buy order.price (fun v => wrap32 (v + order.quantity))
          (side b order.is_buy) ∧
    side (addOrder b order) (!order.is_buy) = side b (!order.is_buy) := by
  cases hb : order.is_buy <;> simp [addOrder, side, hb]

end Book

namespace Execution

theorem sides_addLiquidity (e : OrderExecutionEngine) (price : Price) (quantity : Int)
    (is_buy : Bool) :
    ownSide (addLiquidity e price quantity is_buy) is_buy
      = Side.modify is_buy price (fun v => wrap32 (v + quantity)) (ownSide e is_buy) ∧
    oppSide (addLiquidity e price quantity is_buy) is_buy = oppSide e is_buy ∧
    (addLiquidity e price quantity is_buy).execution_history = e.execution_history := by
  cases is_buy <;> simp [addLiquidity, ownSide, oppSide]

end Execution

/-- C14, as stated, fails: with the bid level `100:2147483647` in place,
`addLiquidity(100, 1, true)` (and likewise `addOrder`) does not leave the level
at `previous + quantity = 2147483648`: the `int` addition wraps and the level
holds -2147483648. -/
theorem addLiquidity_overflow_wraps :
    Execution.WF Execution.fullBook ∧ Book.WF Book.fullBidBook ∧
    Side.level 100 (Execution.ownSide Execution.fullBook true) + 1 = 2147483648 ∧
    Side.find 100 (Execution.ownSide (Execution.addLiquidity Execution.fullBook 100 1 true) true)
      = some (-2147483648) ∧
    Side.level 100 (Book.side Book.fullBidBook true) + 1 = 2147483648 ∧
    Side.find 100 (Book.side (Book.addOrder Book.fullBidBook ⟨2, 100, 1, true⟩) true)
      = some (-2147483648) := by
  decide

/-- C14 (amended): for every book, `price > 0`, `quantity > 0` and side, after
`addLiquidity(price, quantity, side)` the level at `price` on that side holds
its previous aggregate plus `quantity` (previous `0` when the level was absent)
provided that sum is representable as an `int`; every other level of that side,
the whole opposite side and the execution history are unchanged; likewise for
`OrderBook::addOrder`. -/
theorem addLiquidity_aggregates (e : Execution.OrderExecutionEngine) (b : Book.OrderBook)
    (id : Int) (price : Price) (quantity : Int) (is_buy : Bool)
    (he : Execution.WF e) (hb : Book.WF b) (_hp : 0 < price) (_hq : 0 < quantity) :
    ((IsInt32 (Side.level price (Execution.ownSide e is_buy) + quantity) →
        Side.find price
          (Execution.ownSide (Execution.addLiquidity e price quantity is_buy) is_buy)
          = some (Side.level price (Execution.ownSide e is_buy) + quantity)) ∧
     (∀ q, q ≠ price →
        Side.find q (Execution.ownSide (Execution.addLiquidity e price quantity is_buy) is_buy)
          = Side.find q (Execution.ownSide e is_buy)) ∧
     Execution.oppSide (Execution.addLiquidity e price quantity is_buy) is_buy
        = Execution.oppSide e is_buy ∧
     (Execution.addLiquidity e price quantity is_buy).execution_history
        = e.execution_history) ∧
    ((IsInt32 (Side.level price (Book.side b is_buy) + quantity) →
        Side.find price (Book.side (Book.addOrder b ⟨id, price, quantity, is_buy⟩) is_buy)
          = some (Side.level price (Book.side b is_buy) + quantity)) ∧
     (∀ q, q ≠ price →
        Side.find q (Book.side (Book.addOrder b ⟨id, price, quantity, is_buy⟩) is_buy)
          = Side.find q (Book.side b is_buy)) ∧
     Book.side (Book.addOrder b ⟨id, price, quantity, is_buy⟩) (!is_buy)
        = Book.side b (!is_buy)) := by
  have h1 := Execution.sides_addLiquidity e price quantity is_buy
  have h2 := Book.side_addOrder b ⟨id, price, quantity, is_buy⟩
  simp only at h2
  refine ⟨⟨?_, ?_, h1.2.1, h1.2.2⟩, ⟨?_, ?_, h2.2⟩⟩
  · intro hfit
    rw [h1.1, Side.find_modify_self (Execution.wf_own he is_buy),
      Execution.wrap32_of_isInt32 hfit]
  · intro q hne
    rw [h1.1]
    exact Side.find_modify_other hne
  · intro hfit
    rw [h2.1, Side.find_modify_self (Book.wf_side hb is_buy),
      Execution.wrap32_of_isInt32 hfit]
  · intro q hne
    rw [h2.1]
    exact Side.find_modify_other hne

/-- Witness of C14 (amended): adding 5 at the existing bid 49990 of the engine
book and at the existing bid 123.50 of the `OrderBook` of `main`. -/
theorem addLiquidity_aggregates_witness :
    Execution.WF Execution.scenarioBook ∧ Book.WF Book.mainBook ∧
    IsInt32 (Side.level 49990 (Execution.ownSide Execution.scenarioBook true) + 5) ∧
    IsInt32 (Side.level 123.50 (Book.side Book.mainBook true) + 5) ∧
    Side.find 49990
      (Execution.ownSide (Execution.addLiquidity Execution.scenarioBook 49990 5 true) true)
      = some (Side.level 49990 (Execution.ownSide Execution.scenarioBook true) + 5) ∧
    Side.find 123.50 (Book.side (Book.addOrder Book.mainBook ⟨6, 123.50, 5, true⟩) true)
      = some (Side.level 123.50 (Book.side Book.mainBook true) + 5) :=
  ⟨by decide, Book.mainBook_wf, by decide, by rw [Book.mainBook_level_bid]; decide,
    (addLiquidity_aggregates Execution.scenarioBook Book.mainBook 6 49990 5 true (by decide)
      Book.mainBook_wf (by norm_num) (by norm_num)).1.1 (by decide),
    (addLiquidity_aggregates Execution.scenarioBook Book.mainBook 6 123.50 5 true (by decide)
      Book.mainBook_wf (by norm_num) (by norm_num)).2.1
      (by rw [Book.mainBook_level_bid]; decide)⟩

namespace Execution

/-- C17 (uncrossedness is preserved by matching): for every book whose stored
levels are all `> 0` and in which every bid price is strictly below every ask
price, and for every order, the book left by `matchOrder` again has every bid
price strictly below every ask price. -/
theorem matchOrder_preserves_uncrossed (e : OrderExecutionEngine) (o : Order) (hwf : WF e)
    (_hpos : AllPositive e) (hu : Uncrossed e) :
    ∀ b ∈ (matchOrder e o).2.bids, ∀ a ∈ (matchOrder e o).2.asks, b.1 < a.1 :=
  matchOrder_uncrossed hwf hu o

/-- Witness of C17 on the book and first order of `main`: the rested bid 50015
stays below the remaining ask 50020. -/
theorem matchOrder_preserves_uncrossed_witness :
    WF scenarioBook ∧ AllPositive scenarioBook ∧ Uncrossed scenarioBook ∧
    ∀ b ∈ (matchOrder scenarioBook buy_order1).2.bids,
      ∀ a ∈ (matchOrder scenarioBook buy_order1).2.asks, b.1 < a.1 :=
  ⟨by decide, by decide, by decide,
    matchOrder_preserves_uncrossed scenarioBook buy_order1 (by decide) (by decide) (by decide)⟩

/-- C19 (fills never carry positive slippage): every fill returned by
`matchOrder` has slippage `<= 0`, and its slippage is `0` exactly when its price
equals the order's limit price. -/
theorem matchOrder_slippage_nonpos (e : OrderExecutionEngine) (o : Order) :
    ∀ f ∈ (matchOrder e o).1,
      f.slippage ≤ 0 ∧ (f.slippage = 0 ↔ f.fill_price = o.price) := by
  intro f hf
  rw [matchOrder_fills] at hf
  obtain ⟨_, _, _, hs, hp⟩ := matchLoop_fill_fields o _ _ f hf
  rw [hs]
  cases hb : o.is_buy
  · rw [hb] at hp
    simp only [priceOk, Bool.false_eq_true, if_false, ge_iff_le] at hp
    simp only [calculateSlippage, Bool.false_eq_true, if_false]
    exact ⟨sub_nonpos.mpr hp, ⟨fun h => (sub_eq_zero.mp h).symm, fun h => by rw [h, sub_self]⟩⟩
  · rw [hb] at hp
    simp only [priceOk, if_true] at hp
    simp only [calculateSlippage, if_true]
    exact ⟨sub_nonpos.mpr hp, ⟨fun h => sub_eq_zero.mp h, fun h => by rw [h, sub_self]⟩⟩

/-- Witness of C19 on the first fill of the first order of `main`. -/
theorem matchOrder_slippage_nonpos_witness :
    Fill.mk 1 50000 10 0.01 (-15) ∈ (matchOrder scenarioBook buy_order1).1 ∧
    (Fill.mk 1 50000 10 0.01 (-15)).slippage ≤ 0 :=
  ⟨scenarioBook_first_fill,
    (matchOrder_slippage_nonpos scenarioBook buy_order1 _ scenarioBook_first_fill).1⟩

end Execution

/-! ## Accounting of the matching loop -/

namespace Execution

theorem fillQty_eq_min (rem a : Int) : (if rem < a then rem else a) = min rem a := by
  split_ifs <;> omega

theorem fillSum_cons (f : Fill) (fs : List Fill) :
    fillSum (f :: fs) = f.fill_quantity + fillSum fs := by
  simp [fillSum]

theorem total_cons (x : Level) (s : Side) : Side.total (x :: s) = x.2 + Side.total s := by
  simp [Side.total]

/-- On a level that is an `int`, `it->second -= fill_qty` does not overflow. -/
theorem wrap32_level_sub {rem a : Int} (hrem : 0 < rem) (ha : a ≤ 2147483647) :
    (wrap32 (a - (if rem < a then rem else a)) ≤ 0 → a - (if rem < a then rem else a) = 0) ∧
    (¬ wrap32 (a - (if rem < a then rem else a)) ≤ 0 →
      wrap32 (a - (if rem < a then rem else a)) = a - (if rem < a then rem else a)) := by
  unfold wrap32
  split_ifs <;> constructor <;> intro h <;> omega

/-- The loop lowers the total of the map it walks by exactly what it fills, when
the stored levels are `int`s. -/
theorem matchLoop_total (o : Order) (rem : Int) (s : Side)
    (hrange : ∀ x ∈ s, x.2 ≤ 2147483647) :
    Side.total (matchLoop o rem s).2.2 = Side.total s - fillSum (matchLoop o rem s).1 := by
  induction s generalizing rem with
  | nil => simp [matchLoop, fillSum, Side.total]
  | cons y rest ih =>
    obtain ⟨p, a⟩ := y
    have hr2 : ∀ x ∈ rest, x.2 ≤ 2147483647 := fun x hx => hrange x (List.mem_cons_of_mem _ hx)
    have ha : a ≤ 2147483647 := hrange (p, a) (List.mem_cons_self _ _)
    by_cases hg : 0 < rem ∧ priceOk o.is_buy p o.price
    · rw [matchLoop_cons_pos o rest hg]
      have hw := wrap32_level_sub hg.1 ha
      have h2 := ih (wrap32 (rem - (if rem < a then rem else a))) hr2
      by_cases h3 : wrap32 (a - (if rem < a then rem else a)) ≤ 0
      · have h4 := hw.1 h3
        simp only [if_pos h3, fillSum_cons, total_cons]
        omega
      · have h4 := hw.2 h3
        simp only [if_neg h3, fillSum_cons, total_cons]
        omega
    · rw [matchLoop_cons_neg o rest hg]
      simp [fillSum]

/-- The loop leaves every level that fails the price test as it was. -/
theorem matchLoop_find_unqualified (o : Order) (rem : Int) (s : Side) {q : Price}
    (hq : ¬ priceOk o.is_buy q o.price) :
    Side.find q (matchLoop o rem s).2.2 = Side.find q s := by
  induction s generalizing rem with
  | nil => simp [matchLoop]
  | cons y rest ih =>
    obtain ⟨p, a⟩ := y
    by_cases hg : 0 < rem ∧ priceOk o.is_buy p o.price
    · rw [matchLoop_cons_pos o rest hg]
      have hpq : ¬ p = q := by
        intro h
        rw [h] at hg
        exact hq hg.2
      by_cases h3 : wrap32 (a - (if rem < a then rem else a)) ≤ 0
      · simp only [if_pos h3, Side.find, if_neg hpq]
        exact ih _
      · simp only [if_neg h3, Side.find, if_neg hpq]
        exact ih _
    · rw [matchLoop_cons_neg o rest hg]

end Execution

namespace Execution

theorem head_not_in_loop_keys (o : Order) {desc : Bool} {p : Price} {a : Int} {rest : Side}
    (hs : Side.Sorted desc ((p, a) :: rest)) (rem : Int) :
    p ∉ Side.keys (matchLoop o rem rest).2.2 := by
  intro hmem
  obtain ⟨x, hx, hxp⟩ := List.mem_map.mp hmem
  obtain ⟨v, hv⟩ := matchLoop_key_mem o rem rest hx
  have hb := (Side.sorted_cons.mp hs).1 (x.1, v) hv
  rw [hxp] at hb
  exact before_irrefl desc p hb

theorem level_cons_head (p : Price) (a : Int) (rest : Side) :
    Side.level p ((p, a) :: rest) = a := by
  simp [Side.level, Side.find]

theorem level_cons_other {p q : Price} (a : Int) (rest : Side) (h : p ≠ q) :
    Side.level q ((p, a) :: rest) = Side.level q rest := by
  simp [Side.level, Side.find, h]

/-- Step by step: the fill at each position takes the smaller of what is still
wanted and what the level holds; a fill followed by another one erased its
level; a last fill whose level stays leaves nothing over. -/
theorem matchLoop_fill_steps (o : Order) (desc : Bool) (rem : Int) (s : Side)
    (hs : Side.Sorted desc s) (hpos : ∀ x ∈ s, 0 < x.2) (hr : IsInt32 rem) :
    ∀ (pre : List Fill) (f : Fill) (post : List Fill),
      (matchLoop o rem s).1 = pre ++ f :: post →
      f.fill_quantity = min (rem - fillSum pre) (Side.level f.fill_price s) ∧
      0 < f.fill_quantity ∧
      (post ≠ [] → f.fill_price ∉ Side.keys (matchLoop o rem s).2.2) ∧
      (post = [] → f.fill_price ∈ Side.keys (matchLoop o rem s).2.2 →
        (matchLoop o rem s).2.1 = 0) := by
  induction s generalizing rem with
  | nil =>
    intro pre f post heq
    simp [matchLoop] at heq
  | cons y rest ih =>
    obtain ⟨p, a⟩ := y
    have hs2 := Side.sorted_cons.mp hs
    have hposr : ∀ x ∈ rest, 0 < x.2 := fun x hx => hpos x (List.mem_cons_of_mem _ hx)
    have ha : 0 < a := hpos (p, a) (List.mem_cons_self _ _)
    intro pre f post heq
    by_cases hg : 0 < rem ∧ priceOk o.is_buy p o.price
    · have hmin := fillQty_eq_min rem a
      have hsub := wrap32_rem_sub hr hg.1 ha
      have hhead := head_not_in_loop_keys o hs (wrap32 (rem - (if rem < a then rem else a)))
      by_cases h3 : wrap32 (a - (if rem < a then rem else a)) ≤ 0
      · rw [matchLoop_cons_pos o rest hg] at heq ⊢
        simp only [if_pos h3] at heq ⊢
        cases pre with
        | nil =>
          simp only [List.nil_append, List.cons.injEq] at heq
          obtain ⟨hf, _⟩ := heq
          subst hf
          simp only [fillSum, List.map_nil, List.sum_nil, level_cons_head]
          refine ⟨by omega, by omega, fun _ => hhead, fun _ hmem => absurd hmem hhead⟩
        | cons f0 pre2 =>
          simp only [List.cons_append, List.cons.injEq] at heq
          obtain ⟨hf0, hrest⟩ := heq
          have hr2 : IsInt32 (wrap32 (rem - (if rem < a then rem else a))) := wrap32_isInt32 _
          obtain ⟨h1, h2, h4, h5⟩ := ih _ hs2.2 hposr hr2 pre2 f post hrest
          have hfmem : f ∈ (matchLoop o (wrap32 (rem - (if rem < a then rem else a))) rest).1 := by
            rw [hrest]
            simp
          obtain ⟨_, ⟨v, hv⟩, _⟩ := matchLoop_fill_fields o _ rest f hfmem
          have hne : p ≠ f.fill_price := before_ne (hs2.1 (f.fill_price, v) hv)
          rw [level_cons_other a rest hne, fillSum_cons, ← hf0]
          refine ⟨?_, h2, h4, h5⟩
          rw [h1]
          simp only
          congr 1
          omega
      · have hkept := matchLoop_level_kept o rest h3
        rw [matchLoop_cons_pos o rest hg] at heq ⊢
        simp only [if_neg h3, hkept] at heq ⊢
        cases pre with
        | nil =>
          simp only [List.nil_append, List.cons.injEq] at heq
          obtain ⟨hf, hpost⟩ := heq
          subst hf
          simp only [fillSum, List.map_nil, List.sum_nil, level_cons_head]
          refine ⟨by omega, by omega, fun hne => absurd hpost.symm hne, fun _ _ => trivial⟩
        | cons f0 pre2 =>
          simp only [List.cons_append, List.cons.injEq] at heq
          obtain ⟨_, hrest⟩ := heq
          simp at hrest
    · rw [matchLoop_cons_neg o rest hg] at heq
      simp at heq

end Execution

namespace Execution

/-- The two fills of the first order of `main`, in order. -/
theorem scenarioBook_fills :
    (matchOrder scenarioBook buy_order1).1
      = [] ++ Fill.mk 1 50000 10 0.01 (-15) :: [Fill.mk 1 50010 15 0.015 (-5)] := by
  rw [scenarioBook_eq]
  norm_num [wrap32, buy_order1, matchOrder, matchLoop, priceOk, Order.new, calculateGasCost,
    calculateSlippage, gas_price_per_unit]

/-- C15 (partial fill only at the last level): on a book whose levels are all
`> 0`, for an order with quantity `> 0`, the fill at every position of the
returned list has `fill_quantity = min(quantity still wanted at that step, the
level's aggregate before the call) > 0`; a fill that is not the last erased its
level (its price is no longer a key of the opposite side); and if the level of
the last fill still rests afterwards, the fills add up to `order.quantity` and
the order's own side is unchanged (nothing is rested). -/
theorem matchOrder_partial_only_last (e : OrderExecutionEngine) (o : Order) (hwf : WF e)
    (hpos : AllPositive e) (_hq : 0 < o.quantity) (hr : o.remaining_qty = o.quantity) :
    ∀ (pre : List Fill) (f : Fill) (post : List Fill),
      (matchOrder e o).1 = pre ++ f :: post →
      f.fill_quantity
        = min (o.quantity - fillSum pre) (Side.level f.fill_price (oppSide e o.is_buy)) ∧
      0 < f.fill_quantity ∧
      (post ≠ [] → f.fill_price ∉ Side.keys (oppSide (matchOrder e o).2 o.is_buy)) ∧
      (post = [] → f.fill_price ∈ Side.keys (oppSide (matchOrder e o).2 o.is_buy) →
        fillSum (matchOrder e o).1 = o.quantity ∧
        ownSide (matchOrder e o).2 o.is_buy = ownSide e o.is_buy) := by
  intro pre f post heq
  rw [matchOrder_fills] at heq
  obtain ⟨h1, h2, h3, h4⟩ := matchLoop_fill_steps o _ o.remaining_qty _ (wf_opp hwf o.is_buy)
    (allPositive_opp hpos o.is_buy) o.remaining_int pre f post heq
  rw [hr] at h1
  refine ⟨h1, h2, ?_, ?_⟩
  · rw [matchOrder_opp]
    exact h3
  · intro hpost hmem
    rw [matchOrder_opp] at hmem
    have h0 := h4 hpost hmem
    have hsum := matchLoop_sum o o.remaining_qty (oppSide e o.is_buy) o.remaining_int
      (allPositive_opp hpos o.is_buy)
    constructor
    · rw [matchOrder_fills]
      omega
    · rw [matchOrder_own, h0]
      simp

/-- Witness of C15 on the book and first order of `main`: the first fill takes
`min(30, 10)` and erases the ask level 50000. -/
theorem matchOrder_partial_only_last_witness :
    WF scenarioBook ∧ AllPositive scenarioBook ∧ 0 < buy_order1.quantity ∧
    (Fill.mk 1 50000 10 0.01 (-15)).fill_quantity
      = min (buy_order1.quantity - fillSum [])
          (Side.level (Fill.mk 1 50000 10 0.01 (-15)).fill_price
            (oppSide scenarioBook buy_order1.is_buy)) :=
  ⟨by decide, by decide, by decide,
    (matchOrder_partial_only_last scenarioBook buy_order1 (by decide) (by decide) (by decide)
      rfl [] _ _ scenarioBook_fills).1⟩

/-! ## Resting the remainder -/

theorem level_nonneg {s : Side} (hpos : ∀ x ∈ s, 0 < x.2) (p : Price) :
    0 ≤ Side.level p s := by
  unfold Side.level
  cases h : Side.find p s with
  | none => simp
  | some v =>
    have := hpos (p, v) (Side.find_some_mem h)
    simp only [Option.getD_some]
    exact le_of_lt this

/-- After `m[p] += q` on a map with positive levels, all levels are positive when
the sum fits in an `int`. -/
theorem modify_wrap_pos {desc : Bool} {p : Price} {q : Int} {s : Side}
    (hs : Side.Sorted desc s) (hpos : ∀ x ∈ s, 0 < x.2) (hq : 0 < q)
    (hfit : Side.level p s + q ≤ 2147483647) :
    ∀ x ∈ Side.modify desc p (fun v => wrap32 (v + q)) s, 0 < x.2 := by
  intro x hx
  rcases Side.mem_modify hx with h | ⟨h, _⟩
  · exact hpos x h
  · have hfind := Side.find_of_mem (Side.sorted_modify hs) (show (x.1, x.2) ∈ _ from hx)
    rw [h, Side.find_modify_self hs] at hfind
    have hnn := level_nonneg hpos p
    have hw : wrap32 (Side.level p s + q) = Side.level p s + q := by
      apply Execution.wrap32_of_isInt32
      unfold IsInt32
      omega
    simp only [Option.some.injEq] at hfind
    rw [← hfind, hw]
    omega

/-- What the loop leaves over is the incoming quantity minus what was filled, on
a book with positive levels. -/
theorem matchLoop_left_over {e : OrderExecutionEngine} (hpos : AllPositive e) (o : Order) :
    (matchLoop o o.remaining_qty (oppSide e o.is_buy)).2.1
      = o.remaining_qty - fillSum (matchOrder e o).1 := by
  have h := matchLoop_sum o o.remaining_qty (oppSide e o.is_buy) o.remaining_int
    (allPositive_opp hpos o.is_buy)
  rw [matchOrder_fills]
  omega

/-- The growth of the own-side level at the limit price, in terms of what the
loop leaves over. -/
theorem restedQty_eq {e : OrderExecutionEngine} (hwf : WF e) (o : Order) :
    restedQty e o
      = if 0 < (matchLoop o o.remaining_qty (oppSide e o.is_buy)).2.1
        then wrap32 (Side.level o.price (ownSide e o.is_buy)
            + (matchLoop o o.remaining_qty (oppSide e o.is_buy)).2.1)
          - Side.level o.price (ownSide e o.is_buy)
        else 0 := by
  unfold restedQty
  rw [matchOrder_own]
  split_ifs with h1
  · rw [Side.level_modify_self (wf_own hwf _)]
  · omega

/-- When the rest step does not overflow, the growth of the own-side level is the
unfilled remainder. -/
theorem restedQty_fits {e : OrderExecutionEngine} (hwf : WF e) (hpos : AllPositive e)
    (o : Order) (hrem : 0 ≤ o.remaining_qty)
    (hfit : Side.level o.price (ownSide e o.is_buy)
      + (o.remaining_qty - fillSum (matchOrder e o).1) ≤ 2147483647) :
    restedQty e o = o.remaining_qty - fillSum (matchOrder e o).1 := by
  have hleft := matchLoop_left_over hpos o
  have hnn := matchLoop_rem_nonneg o o.remaining_int hrem (oppSide e o.is_buy)
    (allPositive_opp hpos o.is_buy)
  have hlev := level_nonneg (allPositive_own hpos o.is_buy) o.price
  rw [restedQty_eq hwf o, hleft]
  rw [hleft] at hnn
  split_ifs with h1
  · have hw : wrap32 (Side.level o.price (ownSide e o.is_buy)
        + (o.remaining_qty - fillSum (matchOrder e o).1))
        = Side.level o.price (ownSide e o.is_buy)
          + (o.remaining_qty - fillSum (matchOrder e o).1) := by
      apply wrap32_of_isInt32
      unfold IsInt32
      omega
    rw [hw]
    ring
  · omega

/-- C1, as stated, fails in two ways.  With the bid level `100:2147483647` in
place and no asks, BUY 1 @ 100 gets no fill and the rest step `+=` wraps the
level to -2147483648: the level does not grow by 1.  With the single ask level
`100:-1`, BUY 2147483647 @ 100 gets the fill `-1 @ 100`, its counter wraps to
`INT_MIN` and nothing is rested: fills plus rested is -1. -/
theorem conservation_fails_on_overflow :
    (WF fullBook ∧ 0 < (Order.new 1 100 1 true).quantity ∧
      fillSum (matchOrder fullBook (Order.new 1 100 1 true)).1 = 0 ∧
      restedQty fullBook (Order.new 1 100 1 true) = -4294967295 ∧
      fillSum (matchOrder fullBook (Order.new 1 100 1 true)).1
        + restedQty fullBook (Order.new 1 100 1 true) ≠ (Order.new 1 100 1 true).quantity) ∧
    (WF negAskBook ∧ 0 < (Order.new 1 100 2147483647 true).quantity ∧
      fillSum (matchOrder negAskBook (Order.new 1 100 2147483647 true)).1 = -1 ∧
      restedQty negAskBook (Order.new 1 100 2147483647 true) = 0 ∧
      fillSum (matchOrder negAskBook (Order.new 1 100 2147483647 true)).1
        + restedQty negAskBook (Order.new 1 100 2147483647 true)
        ≠ (Order.new 1 100 2147483647 true).quantity) := by
  decide

/-- C1 (conservation, amended): on a book whose stored levels are all `> 0`, for
an order with positive quantity and `remaining_qty = quantity`, when the level
at the limit price on the order's own side plus the unfilled remainder is at
most `INT_MAX` (the rest step does not overflow), the fill quantities returned by
`matchOrder` plus the quantity rested at the limit price add up to
`order.quantity`. -/
theorem matchOrder_conservation (e : OrderExecutionEngine) (o : Order) (hwf : WF e)
    (hpos : AllPositive e) (hq : 0 < o.quantity) (hr : o.remaining_qty = o.quantity)
    (hfit : Side.level o.price (ownSide e o.is_buy)
      + (o.quantity - fillSum (matchOrder e o).1) ≤ 2147483647) :
    fillSum (matchOrder e o).1 + restedQty e o = o.quantity := by
  rw [← hr] at hfit
  rw [restedQty_fits hwf hpos o (by omega) hfit, hr]
  ring

/-- Witness of C1 (amended) on the book and first order of `main`: 25 filled, 5
rested. -/
theorem matchOrder_conservation_witness :
    WF scenarioBook ∧ AllPositive scenarioBook ∧ 0 < buy_order1.quantity ∧
    buy_order1.remaining_qty = buy_order1.quantity ∧
    Side.level buy_order1.price (ownSide scenarioBook buy_order1.is_buy)
      + (buy_order1.quantity - fillSum (matchOrder scenarioBook buy_order1).1) ≤ 2147483647 ∧
    fillSum (matchOrder scenarioBook buy_order1).1 + restedQty scenarioBook buy_order1 = 30 :=
  ⟨by decide, by decide, by decide, rfl, by decide,
    matchOrder_conservation scenarioBook buy_order1 (by decide) (by decide) (by decide) rfl
      (by decide)⟩

/-- Accounting of a match on the two sides, for either kind of order. -/
theorem matchOrder_accounting_sides (e : OrderExecutionEngine) (o : Order) (hwf : WF e)
    (hpos : AllPositive e) (hint : ∀ x ∈ oppSide e o.is_buy, IsInt32 x.2) :
    (∀ p, ¬ priceOk o.is_buy p o.price →
      Side.find p (oppSide (matchOrder e o).2 o.is_buy) = Side.find p (oppSide e o.is_buy)) ∧
    Side.total (oppSide (matchOrder e o).2 o.is_buy)
      = Side.total (oppSide e o.is_buy) - fillSum (matchOrder e o).1 ∧
    (∀ p, p ≠ o.price →
      Side.find p (ownSide (matchOrder e o).2 o.is_buy) = Side.find p (ownSide e o.is_buy)) ∧
    (0 < o.remaining_qty - fillSum (matchOrder e o).1 →
      IsInt32 (Side.level o.price (ownSide e o.is_buy)
        + (o.remaining_qty - fillSum (matchOrder e o).1)) →
      Side.find o.price (ownSide (matchOrder e o).2 o.is_buy)
        = some (Side.level o.price (ownSide e o.is_buy)
            + (o.remaining_qty - fillSum (matchOrder e o).1))) ∧
    (o.remaining_qty - fillSum (matchOrder e o).1 ≤ 0 →
      ownSide (matchOrder e o).2 o.is_buy = ownSide e o.is_buy) := by
  have hrest := (matchLoop_left_over hpos o).symm
  rw [hrest, matchOrder_opp, matchOrder_own, matchOrder_fills]
  refine ⟨?_, ?_, ?_, ?_, ?_⟩
  · intro p hp
    exact matchLoop_find_unqualified o _ _ hp
  · exact matchLoop_total o _ _ (fun x hx => (hint x hx).2)
  · intro p hp
    split_ifs
    · exact Side.find_modify_other hp
    · rfl
  · intro h hfit
    rw [if_pos h, Side.find_modify_self (wf_own hwf o.is_buy), wrap32_of_isInt32 hfit]
  · intro h
    rw [if_neg (not_lt.mpr h)]

theorem allInt32_opp {e : OrderExecutionEngine} (h : AllInt32 e) (b : Bool) :
    ∀ x ∈ oppSide e b, IsInt32 x.2 := by
  cases b
  · exact h.1
  · exact h.2

/-- C18, as stated, fails: with the bid level `100:2147483647` in place and no
asks, BUY 1 @ 100 leaves a remainder of 1, but the bid level at 100 does not
become `2147483647 + 1`: the `+=` wraps and it holds -2147483648. -/
theorem rested_level_wraps :
    WF fullBook ∧ AllPositive fullBook ∧ AllInt32 fullBook ∧
    (Order.new 3 100 1 true).remaining_qty
      - fillSum (matchOrder fullBook (Order.new 3 100 1 true)).1 = 1 ∧
    Side.level 100 fullBook.bids = 2147483647 ∧
    Side.find 100 (matchOrder fullBook (Order.new 3 100 1 true)).2.bids
      = some (-2147483648) := by
  decide

/-- C18 (book-side accounting of a match, amended): on a book whose stored
levels are `int`s and all `> 0`, for a BUY, every ask level with price above the
limit is unchanged, the total ask quantity drops by exactly the sum of the fill
quantities, and the bid side changes only at the limit price, whose level grows
by the remainder `remaining_qty - filled` when that is positive and the sum fits
in an `int` (the bid side is unchanged when the remainder is not positive);
symmetrically for a SELL with bids and asks exchanged. -/
theorem matchOrder_accounting (e : OrderExecutionEngine) (o : Order) (hwf : WF e)
    (hpos : AllPositive e) (hint : AllInt32 e) :
    (o.is_buy = true →
      (∀ p, p > o.price → Side.find p (matchOrder e o).2.asks = Side.find p e.asks) ∧
      Side.total (matchOrder e o).2.asks = Side.total e.asks - fillSum (matchOrder e o).1 ∧
      (∀ p, p ≠ o.price → Side.find p (matchOrder e o).2.bids = Side.find p e.bids) ∧
      (0 < o.remaining_qty - fillSum (matchOrder e o).1 →
        IsInt32 (Side.level o.price e.bids + (o.remaining_qty - fillSum (matchOrder e o).1)) →
        Side.find o.price (matchOrder e o).2.bids
          = some (Side.level o.price e.bids
              + (o.remaining_qty - fillSum (matchOrder e o).1))) ∧
      (o.remaining_qty - fillSum (matchOrder e o).1 ≤ 0 → (matchOrder e o).2.bids = e.bids)) ∧
    (o.is_buy = false →
      (∀ p, p < o.price → Side.find p (matchOrder e o).2.bids = Side.find p e.bids) ∧
      Side.total (matchOrder e o).2.bids = Side.total e.bids - fillSum (matchOrder e o).1 ∧
      (∀ p, p ≠ o.price → Side.find p (matchOrder e o).2.asks = Side.find p e.asks) ∧
      (0 < o.remaining_qty - fillSum (matchOrder e o).1 →
        IsInt32 (Side.level o.price e.asks + (o.remaining_qty - fillSum (matchOrder e o).1)) →
        Side.find o.price (matchOrder e o).2.asks
          = some (Side.level o.price e.asks
              + (o.remaining_qty - fillSum (matchOrder e o).1))) ∧
      (o.remaining_qty - fillSum (matchOrder e o).1 ≤ 0 → (matchOrder e o).2.asks = e.asks)) := by
  have h := matchOrder_accounting_sides e o hwf hpos (allInt32_opp hint o.is_buy)
  constructor
  · intro hb
    rw [hb] at h
    simp only [ownSide, oppSide, if_true, priceOk, not_le] at h
    exact h
  · intro hb
    rw [hb] at h
    simp only [ownSide, oppSide, Bool.false_eq_true, if_false, priceOk, ge_iff_le, not_le] at h
    exact h

/-- Witness of C18 (amended) on the book and first order of `main`: the asks lose
the 25 that were filled. -/
theorem matchOrder_accounting_witness :
    WF scenarioBook ∧ AllPositive scenarioBook ∧ AllInt32 scenarioBook ∧
    buy_order1.is_buy = true ∧
    Side.total (matchOrder scenarioBook buy_order1).2.asks
      = Side.total scenarioBook.asks - fillSum (matchOrder scenarioBook buy_order1).1 :=
  ⟨by decide, by decide, by decide, rfl,
    ((matchOrder_accounting scenarioBook buy_order1 (by decide) (by decide) (by decide)).1
      rfl).2.1⟩

/-! ## Positivity of the stored levels -/

theorem matchOrder_allPositive {e : OrderExecutionEngine} (hwf : WF e) (h : AllPositive e)
    (o : Order) (hfit : (Op.submitOrder o).Fits e) : AllPositive (matchOrder e o).2 := by
  have hfit2 : Side.level o.price (ownSide e o.is_buy)
      + (o.remaining_qty - fillSum (matchOrder e o).1) ≤ 2147483647 := hfit
  have hleft := matchLoop_left_over h o
  apply allPositive_of_sides o.is_buy
  · rw [matchOrder_own]
    split_ifs with h1
    · rw [← hleft] at hfit2
      exact modify_wrap_pos (wf_own hwf _) (allPositive_own h _) h1 hfit2
    · exact allPositive_own h _
  · rw [matchOrder_opp]
    exact matchLoop_pos o _ _ (allPositive_opp h _)

theorem submitOrder_allPositive {e : OrderExecutionEngine} (hwf : WF e) (h : AllPositive e)
    (o : Order) (hfit : (Op.submitOrder o).Fits e) : AllPositive (submitOrder e o) := by
  have h2 := matchOrder_allPositive hwf h o hfit
  unfold AllPositive at h2 ⊢
  rw [(submitOrder_sides e o).1, (submitOrder_sides e o).2]
  exact h2

theorem addLiquidity_allPositive {e : OrderExecutionEngine} (hwf : WF e) (h : AllPositive e)
    (price : Price) {quantity : Int} (hq : 0 < quantity) (is_buy : Bool)
    (hfit : (Op.addLiquidity price quantity is_buy).Fits e) :
    AllPositive (addLiquidity e price quantity is_buy) := by
  cases is_buy
  · have hfit2 : Side.level price e.asks + quantity ≤ 2147483647 := hfit
    exact ⟨h.1, modify_wrap_pos hwf.2 h.2 hq hfit2⟩
  · have hfit2 : Side.level price e.bids + quantity ≤ 2147483647 := hfit
    exact ⟨modify_wrap_pos hwf.1 h.1 hq hfit2, h.2⟩

theorem step_allPositive {e : OrderExecutionEngine} (hwf : WF e) (h : AllPositive e) {op : Op}
    (hop : op.Positive) (hfit : op.Fits e) : AllPositive (step e op) := by
  cases op with
  | addLiquidity price quantity is_buy =>
    exact addLiquidity_allPositive hwf h price hop.2 is_buy hfit
  | submitOrder order => exact submitOrder_allPositive hwf h order hfit

theorem run_allPositive {e : OrderExecutionEngine} (hwf : WF e) (h : AllPositive e)
    (ops : List Op) (hops : ∀ op ∈ ops, op.Positive) (hfit : NoOverflow e ops) :
    AllPositive (run e ops) := by
  induction ops generalizing e with
  | nil => exact h
  | cons op rest ih =>
    simp only [run, List.foldl_cons]
    exact ih (step_wf hwf op)
      (step_allPositive hwf h (hops op (List.mem_cons_self _ _)) hfit.1)
      (fun op2 h2 => hops op2 (List.mem_cons_of_mem _ h2)) hfit.2

/-- C6, as stated, fails: `addLiquidity(100, 2147483647, true)` followed by
`addLiquidity(100, 1, true)`, both with `price > 0` and `quantity > 0`, leaves
the bid level 100 holding -2147483648. -/
theorem level_negative_after_overflow :
    (∀ op ∈ overflowOps, op.Positive) ∧
    (run OrderExecutionEngine.empty overflowOps).bids = [(100, -2147483648)] ∧
    ¬ (∀ x ∈ (run OrderExecutionEngine.empty overflowOps).bids, 0 < x.2) := by
  decide

/-- C6 (non-negativity, amended): from the empty engine, after any sequence of
`addLiquidity` calls with `price > 0`, `quantity > 0` and `submitOrder` calls with
any order in which no `+=` overflows (each updated level, the old aggregate plus
the added quantity or rested remainder, is at most `INT_MAX`), every level stored
in the bid map and in the ask map has an aggregate `> 0`. -/
theorem levels_stay_positive (ops : List Op) (hops : ∀ op ∈ ops, op.Positive)
    (hfit : NoOverflow OrderExecutionEngine.empty ops) :
    (∀ x ∈ (run OrderExecutionEngine.empty ops).bids, 0 < x.2) ∧
    (∀ x ∈ (run OrderExecutionEngine.empty ops).asks, 0 < x.2) := by
  have h0 : AllPositive OrderExecutionEngine.empty := by
    simp [AllPositive, OrderExecutionEngine.empty]
  have hwf0 : WF OrderExecutionEngine.empty := by decide
  exact run_allPositive hwf0 h0 ops hops hfit

/-- Witness of C6 (amended) on the calls of `main`. -/
theorem levels_stay_positive_witness :
    (∀ op ∈ mainOps, op.Positive) ∧ NoOverflow OrderExecutionEngine.empty mainOps ∧
    (∀ x ∈ (run OrderExecutionEngine.empty mainOps).bids, 0 < x.2) :=
  ⟨by decide, by decide, (levels_stay_positive mainOps (by decide) (by decide)).1⟩

end Execution
